import Mathlib

/-!
Task systems of `tasksys.cpp`

A shallow embedding of the four task systems (`TaskSystemSerial`,
`TaskSystemParallelSpawn`, `TaskSystemParallelThreadPoolSpinning`,
`TaskSystemParallelThreadPoolSleeping`) and the properties of their `run` operation.

* C++ `int` values are mathematical integers; the operations that can leave the 32-bit
  range (`t * num_total_tasks`, `x++` on a shared counter) are wrapped with `wrap32`.
* An `IRunnable` is its `runTask` method, a state transformer on the caller's state.
* The two thread pools are transition systems: every block of code that runs while
  `mtx_` is held is one atomic step, as is one call of `runTask`.
-/

namespace TaskSys

/-! ## Machine integers -/

/-- Largest value of a C++ `int`. -/
def INT_MAX : Int := 2147483647

/-- Smallest value of a C++ `int`. -/
def INT_MIN : Int := -2147483648

/-- Membership in the range of a C++ `int`. -/
def isInt32 (x : Int) : Prop := INT_MIN ≤ x ∧ x ≤ INT_MAX

instance (x : Int) : Decidable (isInt32 x) := by
  unfold isInt32; exact inferInstance

/-- Reduction of a mathematical integer to the 32-bit two's complement value with the
same residue modulo `2^32`: the result of an `int` operation on the target. -/
def wrap32 (x : Int) : Int := (x + 2147483648) % 4294967296 - 2147483648

/-- C++ `int` division `a / b`: undefined (`none`) for a zero divisor, otherwise the
quotient truncated toward zero. -/
def cdiv (a b : Int) : Option Int :=
  if b = 0 then none else some (wrap32 (Int.tdiv a b))

/-! ## Workloads -/

/-- An `IRunnable`: `runTask task_id num_total_tasks` acting on the state `σ` the
caller owns. -/
structure IRunnable (σ : Type) where
  runTask : Int → Int → σ → σ

/-- One call `runTask(task_id, num_total_tasks)`. -/
abbrev Call := Int × Int

/-- The runnable that records its own calls, in the order they are made. -/
def recorder : IRunnable (List Call) where
  runTask := fun task_id num_total_tasks log => log ++ [(task_id, num_total_tasks)]

/-- The effect on the caller's state of a sequence of calls executed one after the
other. -/
def replay {σ : Type} (runnable : IRunnable σ) (calls : List Call) (st : σ) : σ :=
  calls.foldl (fun acc c => runnable.runTask c.1 c.2 acc) st

/-- The workload of the cross-strategy property (the shape of `ComputeTask::runTask`
in `main.cpp`, `results[taskID] = val`): call `(i, n)` stores `val i n` in slot `i`
of the output buffer and touches nothing else. -/
def slotWriter {α : Type} (val : Int → Int → α) : IRunnable (Int → α) where
  runTask := fun task_id num_total_tasks results =>
    Function.update results task_id (val task_id num_total_tasks)

/-! ## `TaskSystemSerial` -/

/-- The loop `for (int i = ...; i < hi; i++) body(i)` entered with loop variable `i`.
The increment cannot overflow: it is only executed when `i < hi`. -/
def forLoop {σ : Type} (body : Int → σ → σ) (hi : Int) (i : Int) (st : σ) : σ :=
  if i < hi then forLoop body hi (i + 1) (body i st) else st
termination_by (hi - i).toNat
decreasing_by omega

/-- `TaskSystemSerial::run`:
`for (int i = 0; i < num_total_tasks; i++) runnable->runTask(i, num_total_tasks)`. -/
def TaskSystemSerial.run {σ : Type} (runnable : IRunnable σ) (num_total_tasks : Int)
    (st : σ) : σ :=
  forLoop (fun i => runnable.runTask i num_total_tasks) num_total_tasks 0 st

/-! ## `TaskSystemParallelSpawn` -/

/-- Modelled from the spec: the member declarations of `tasksys.h`, which is not among
the sources.  `tasksys.cpp` uses one data member of `TaskSystemParallelSpawn`,
`num_threads_`, an `int`. -/
structure TaskSystemParallelSpawn where
  num_threads_ : Int
deriving DecidableEq, Repr

/-- Constructor `TaskSystemParallelSpawn::TaskSystemParallelSpawn(num_threads)`. -/
def TaskSystemParallelSpawn.construct (num_threads : Int) : TaskSystemParallelSpawn :=
  { num_threads_ := max 1 num_threads }

/-- The bounds `start` and `end` computed by the lambda of thread `t`, in 32-bit
arithmetic; `none` when a division is undefined. -/
def TaskSystemParallelSpawn.bounds (ts : TaskSystemParallelSpawn) (num_total_tasks : Int)
    (t : Int) : Option (Int × Int) :=
  match cdiv (wrap32 (t * num_total_tasks)) ts.num_threads_,
        cdiv (wrap32 (wrap32 (t + 1) * num_total_tasks)) ts.num_threads_ with
  | some start, some end_ => some (start, end_)
  | _, _ => none

/-- The lambda of thread `t`: the calls it makes, in order
(`for (int i = start; i < end; i++) runnable->runTask(i, num_total_tasks)`). -/
def TaskSystemParallelSpawn.threadBody (ts : TaskSystemParallelSpawn)
    (num_total_tasks : Int) (t : Int) : Option (List Call) :=
  match ts.bounds num_total_tasks t with
  | some (start, end_) =>
      some (forLoop (fun i => recorder.runTask i num_total_tasks) end_ start [])
  | none => none

/-- All results of a list of computations, `none` if one of them is undefined. -/
def collect {α : Type} : List (Option α) → Option (List α)
  | [] => some []
  | none :: _ => none
  | some a :: rest =>
      match collect rest with
      | some as => some (a :: as)
      | none => none

/-- `TaskSystemParallelSpawn::run`: the calls made by each of the spawned threads
`t = 0, ..., num_threads_ - 1` (no thread at all when `num_total_tasks <= 0`);
`none` when some thread divides by zero.  The threads run concurrently, so the calls
of a run are executed in some interleaving of these per-thread sequences. -/
def TaskSystemParallelSpawn.run (ts : TaskSystemParallelSpawn) (num_total_tasks : Int) :
    Option (List (List Call)) :=
  if num_total_tasks ≤ 0 then some []
  else collect ((List.range ts.num_threads_.toNat).map
    (fun (t : Nat) => ts.threadBody num_total_tasks (t : Int)))

/-- The calls of a run of `TaskSystemParallelSpawn` in the schedule that runs the
threads one after the other. -/
def TaskSystemParallelSpawn.calls (ts : TaskSystemParallelSpawn) (num_total_tasks : Int) :
    Option (List Call) :=
  (ts.run num_total_tasks).map List.flatten

/-- A schedule of a run: an order in which the calls of all threads are executed.
Every interleaving of the per-thread sequences is a permutation of their
concatenation, which is all the properties below depend on. -/
def TaskSystemParallelSpawn.IsSchedule (ts : TaskSystemParallelSpawn)
    (num_total_tasks : Int) (schedule : List Call) : Prop :=
  ∃ calls, ts.calls num_total_tasks = some calls ∧ schedule.Perm calls

/-! ## The thread pools: shared state -/

/-- A pointer `IRunnable *`: `none` is `nullptr`, `some k` the address of a runnable. -/
abbrev RunnablePtr := Option Nat

/-- The position of a worker thread in `workerLoop`, with its live local variables. -/
inductive Worker where
  /-- At the head of the `while (true)` loop, before the first locked block. -/
  | top
  /-- Left the first locked block with a claimed index; `runTask` not yet called. -/
  | claimed (task_id : Int) (total : Int) (runnable : RunnablePtr)
  /-- Returned from `runTask`, before the second locked block. -/
  | ran
  /-- Returned from `workerLoop` after reading `shutting_down_`. -/
  | exited
deriving DecidableEq, Repr

/-- The position of the thread that owns the pool. -/
inductive Caller where
  /-- Outside every member function. -/
  | idle
  /-- Inside `run`, after the batch was published, waiting for its completion. -/
  | inRun
  /-- Inside the destructor, after `shutting_down_` was set. -/
  | destroyed
deriving DecidableEq, Repr

/-- A call `runnable->runTask(task_id, total)` made by a worker, with the number of the
batch that was current when the call was made. -/
structure Invocation where
  batch : Nat
  runnable : RunnablePtr
  task_id : Int
  total : Int
deriving DecidableEq, Repr

/-- A successful claim `task_id = next_task_++` with the batch it was made in and the
worker that made it. -/
structure Claim where
  batch : Nat
  worker : Nat
  task_id : Int
deriving DecidableEq, Repr

/-- Modelled from the spec: the member declarations of `tasksys.h`, which is not among
the sources; the members are those `tasksys.cpp` uses, with the types of the Dispatch
Cursor of the spec (`int` counters, `bool` flags).  The structure holds the data members
of a thread pool (`TaskSystemParallelThreadPoolSpinning` and
`TaskSystemParallelThreadPoolSleeping` use the same ones; the mutex and the condition
variables are represented by the atomicity and the enabledness of the steps), the
positions of its threads, and three history fields that no step reads:
`published` (the batches published by `run`, oldest first), `log` (the calls of
`runTask`, in execution order) and `claims` (the claims, in the order they were made). -/
structure Pool where
  num_threads_ : Int
  current_runnable_ : RunnablePtr
  total_tasks_ : Int
  next_task_ : Int
  completed_tasks_ : Int
  has_work_ : Bool
  shutting_down_ : Bool
  workers_ : List Worker
  caller : Caller
  published : List (RunnablePtr × Int)
  log : List Invocation
  claims : List Claim
deriving DecidableEq, Repr

/-- Number of the batch that is current: batches are numbered from `0` in the order
they are published. -/
def Pool.batchId (s : Pool) : Nat := s.published.length - 1

/-- The exit condition of `run`: `(completed_tasks_ == total_tasks_) && !has_work_`. -/
def Pool.done (s : Pool) : Bool :=
  (s.completed_tasks_ == s.total_tasks_) && !s.has_work_

/-- The wait predicate of a sleeping worker:
`shutting_down_ || (has_work_ && next_task_ < total_tasks_)`. -/
def Pool.workAvailable (s : Pool) : Bool :=
  s.shutting_down_ || (s.has_work_ && decide (s.next_task_ < s.total_tasks_))

/-- The claim `task_id = next_task_++; total = total_tasks_; runnable = current_runnable_`
made by worker `w`; the worker is left at the head of the loop. -/
def Pool.claimNext (s : Pool) (w : Nat) : Pool :=
  { s with
    next_task_ := wrap32 (s.next_task_ + 1)
    claims := s.claims ++ [{ batch := s.batchId, worker := w, task_id := s.next_task_ }] }

/-- Worker `w` moves to position `p`. -/
def Pool.setWorker (s : Pool) (w : Nat) (p : Worker) : Pool :=
  { s with workers_ := s.workers_.set w p }

/-- The call `runnable->runTask(task_id, total)` of a worker, outside the lock. -/
def Pool.callRunTask (s : Pool) (w : Nat) (task_id total : Int) (runnable : RunnablePtr) :
    Pool :=
  { s with
    log := s.log ++ [{ batch := s.batchId, runnable := runnable, task_id := task_id,
                       total := total }]
    workers_ := s.workers_.set w Worker.ran }

/-- The second locked block of `workerLoop`:
`completed_tasks_++; if (completed_tasks_ == total_tasks_) has_work_ = false;`
after which the worker is back at the head of the loop. -/
def Pool.complete (s : Pool) (w : Nat) : Pool :=
  { s with
    completed_tasks_ := wrap32 (s.completed_tasks_ + 1)
    has_work_ := if wrap32 (s.completed_tasks_ + 1) = s.total_tasks_ then false
                 else s.has_work_
    workers_ := s.workers_.set w Worker.top }

/-- The locked block of `run` that publishes a batch. -/
def Pool.publish (s : Pool) (runnable : Nat) (num_total_tasks : Int) : Pool :=
  { s with
    current_runnable_ := some runnable
    total_tasks_ := num_total_tasks
    next_task_ := 0
    completed_tasks_ := 0
    has_work_ := true
    caller := Caller.inRun
    published := s.published ++ [(some runnable, num_total_tasks)] }

/-- The constructors of both pools: `num_threads_ = std::max(1, num_threads)`, an idle
dispatch state, and `num_threads_` workers at the head of `workerLoop`. -/
def Pool.construct (num_threads : Int) : Pool :=
  { num_threads_ := max 1 num_threads
    current_runnable_ := none
    total_tasks_ := 0
    next_task_ := 0
    completed_tasks_ := 0
    has_work_ := false
    shutting_down_ := false
    workers_ := List.replicate (max 1 num_threads).toNat Worker.top
    caller := Caller.idle
    published := []
    log := []
    claims := [] }

/-- The locked block of both destructors: `shutting_down_ = true`.  The destructor is
entered by the owner of the pool, outside `run`. -/
def Pool.destroy (s : Pool) : Option Pool :=
  if s.caller = Caller.idle then
    some { s with shutting_down_ := true, caller := Caller.destroyed }
  else none

/-- The beginning of `run(runnable, num_total_tasks)` in both pools, entered by the owner
of the pool with an `int` argument: return at once when `num_total_tasks <= 0`,
otherwise publish the batch.  The owner is one thread, so calls of `run` on a pool do
not overlap: `run` is entered from outside every member function only. -/
def Pool.enterRun (s : Pool) (runnable : Nat) (num_total_tasks : Int) : Option Pool :=
  if s.caller = Caller.idle ∧ isInt32 num_total_tasks then
    if num_total_tasks ≤ 0 then some s
    else some (s.publish runnable num_total_tasks)
  else none

/-- The atomic steps of the threads of a pool. -/
inductive Action where
  /-- The owner calls `run(runnable, num_total_tasks)`. -/
  | run (runnable : Nat) (num_total_tasks : Int)
  /-- The owner, inside `run`, evaluates the exit condition once. -/
  | poll
  /-- Worker `w` executes its next block. -/
  | worker (w : Nat)
  /-- The owner enters the destructor. -/
  | destroy
deriving DecidableEq, Repr

/-- Execution of a sequence of steps; `none` when a step is not enabled. -/
def exec (step : Action → Pool → Option Pool) : List Action → Pool → Option Pool
  | [], s => some s
  | a :: rest, s =>
      match step a s with
      | some s1 => exec step rest s1
      | none => none

/-! ## `TaskSystemParallelThreadPoolSpinning` -/

namespace TaskSystemParallelThreadPoolSpinning

/-- Constructor `TaskSystemParallelThreadPoolSpinning(num_threads)`. -/
def construct (num_threads : Int) : Pool := Pool.construct num_threads

/-- One block of `workerLoop` executed by worker `w`. -/
def workerLoop (s : Pool) (w : Nat) : Option Pool :=
  match s.workers_[w]? with
  | none => none
  | some Worker.exited => none
  | some Worker.top =>
      if s.shutting_down_ then some (s.setWorker w Worker.exited)
      else if s.has_work_ && decide (s.next_task_ < s.total_tasks_) then
        if s.next_task_ < 0 then some (s.claimNext w)
        else some ((s.claimNext w).setWorker w
          (Worker.claimed s.next_task_ s.total_tasks_ s.current_runnable_))
      else some s
  | some (Worker.claimed task_id total runnable) =>
      some (s.callRunTask w task_id total runnable)
  | some Worker.ran => some (s.complete w)

/-- One evaluation of `done` in the polling loop of `run`: leave the loop when it is
true, yield and stay in the loop otherwise. -/
def runPoll (s : Pool) : Option Pool :=
  if s.caller = Caller.inRun then
    if s.done then some { s with caller := Caller.idle } else some s
  else none

/-- The step function of the spinning pool. -/
def step : Action → Pool → Option Pool
  | Action.run runnable num_total_tasks, s => s.enterRun runnable num_total_tasks
  | Action.poll, s => runPoll s
  | Action.worker w, s => workerLoop s w
  | Action.destroy, s => s.destroy

/-- The states the spinning pool built with `num_threads` can reach. -/
def Reachable (num_threads : Int) (s : Pool) : Prop :=
  ∃ acts, exec step acts (construct num_threads) = some s

end TaskSystemParallelThreadPoolSpinning

/-! ## `TaskSystemParallelThreadPoolSleeping` -/

namespace TaskSystemParallelThreadPoolSleeping

/-- Constructor `TaskSystemParallelThreadPoolSleeping(num_threads)`. -/
def construct (num_threads : Int) : Pool := Pool.construct num_threads

/-- One block of `workerLoop` executed by worker `w`.  At the head of the loop the
worker is blocked in `cv_work_.wait` (no step) until the wait predicate holds; the
predicate is evaluated and the claim is made under the same lock. -/
def workerLoop (s : Pool) (w : Nat) : Option Pool :=
  match s.workers_[w]? with
  | none => none
  | some Worker.exited => none
  | some Worker.top =>
      if s.workAvailable then
        if s.shutting_down_ then some (s.setWorker w Worker.exited)
        else some ((s.claimNext w).setWorker w
          (Worker.claimed s.next_task_ s.total_tasks_ s.current_runnable_))
      else none
  | some (Worker.claimed task_id total runnable) =>
      some (s.callRunTask w task_id total runnable)
  | some Worker.ran => some (s.complete w)

/-- The wait `cv_done_.wait(lock, done)` at the end of `run`: the owner is blocked
(no step) until the exit condition holds. -/
def runWait (s : Pool) : Option Pool :=
  if s.caller = Caller.inRun then
    if s.done then some { s with caller := Caller.idle } else none
  else none

/-- The step function of the sleeping pool. -/
def step : Action → Pool → Option Pool
  | Action.run runnable num_total_tasks, s => s.enterRun runnable num_total_tasks
  | Action.poll, s => runWait s
  | Action.worker w, s => workerLoop s w
  | Action.destroy, s => s.destroy

/-- The states the sleeping pool built with `num_threads` can reach. -/
def Reachable (num_threads : Int) (s : Pool) : Prop :=
  ∃ acts, exec step acts (construct num_threads) = some s

end TaskSystemParallelThreadPoolSleeping

/-! ## Index ranges -/

/-- The integers `lo, lo + 1, ..., hi - 1` in increasing order (empty when `hi ≤ lo`). -/
def indexRange (lo hi : Int) : List Int :=
  (List.range (hi - lo).toNat).map (fun (k : Nat) => lo + (k : Int))

/-- The calls `(i, n)` for `i = lo, ..., hi - 1`, in increasing order of `i`. -/
def callRange (lo hi n : Int) : List Call := (indexRange lo hi).map (fun i => (i, n))

/-! ## Counting workers -/

/-- A worker that has claimed an index whose completion is not yet counted. -/
def Worker.holding : Worker → Bool
  | Worker.claimed _ _ _ => true
  | Worker.ran => true
  | _ => false

/-- A worker that has claimed index `i` and has not yet called `runTask`. -/
def Worker.pending (i : Int) : Worker → Bool
  | Worker.claimed task_id _ _ => decide (task_id = i)
  | _ => false

/-- Number of workers between a claim and the count of its completion. -/
def Pool.held (s : Pool) : Nat := s.workers_.countP Worker.holding

/-- Number of calls of `runTask` with index `i` made while batch `b` was current. -/
def Pool.calls (s : Pool) (b : Nat) (i : Int) : Nat :=
  s.log.countP (fun e => decide (e.batch = b) && decide (e.task_id = i))

/-- The indices claimed while batch `b` was current, in the order of the claims. -/
def Pool.claimed (s : Pool) (b : Nat) : List Int :=
  (s.claims.filter (fun c => decide (c.batch = b))).map (fun c => c.task_id)

/-! ## Invariants of the dispatch state -/

/-- The numeric invariant of the dispatch state. -/
structure Pool.Inv (s : Pool) : Prop where
  total_le : s.total_tasks_ ≤ 2147483647
  completed_nonneg : 0 ≤ s.completed_tasks_
  held_eq : s.completed_tasks_ + (s.held : Int) = s.next_task_
  next_le : s.next_task_ ≤ s.total_tasks_
  has_work_iff : s.has_work_ = true ↔ s.completed_tasks_ ≠ s.total_tasks_
  idle_done : s.caller ≠ Caller.inRun → s.completed_tasks_ = s.total_tasks_

/-- The atomic transitions of a pool, each with the thread step that makes it and the
facts its code has tested: what a step of either pool does to the state. -/
inductive Pool.Trans : Action → Pool → Pool → Prop where
  /-- A block that changes nothing (a worker that found no work, an unsuccessful poll,
  `run` with `num_total_tasks <= 0`). -/
  | stay (a : Action) (s : Pool) : Pool.Trans a s s
  /-- The block of `run` that publishes a batch. -/
  | publish (s : Pool) (r : Nat) (n : Int) (hc : s.caller = Caller.idle) (hint : isInt32 n)
      (hn : 0 < n) : Pool.Trans (Action.run r n) s (s.publish r n)
  /-- The owner reads the exit condition as true and leaves `run`. -/
  | finish (s : Pool) (hc : s.caller = Caller.inRun) (hd : s.done = true) :
      Pool.Trans Action.poll s { s with caller := Caller.idle }
  /-- The destructor sets `shutting_down_`. -/
  | destroy (s : Pool) (hc : s.caller = Caller.idle) :
      Pool.Trans Action.destroy s { s with shutting_down_ := true, caller := Caller.destroyed }
  /-- A worker reads `shutting_down_` as true and returns. -/
  | exit (s : Pool) (w : Nat) (hw : s.workers_[w]? = some Worker.top)
      (hsd : s.shutting_down_ = true) :
      Pool.Trans (Action.worker w) s (s.setWorker w Worker.exited)
  /-- A worker claims the next index. -/
  | claim (s : Pool) (w : Nat) (hw : s.workers_[w]? = some Worker.top)
      (hsd : s.shutting_down_ = false) (hwork : s.has_work_ = true)
      (hlt : s.next_task_ < s.total_tasks_) :
      Pool.Trans (Action.worker w) s ((s.claimNext w).setWorker w
        (Worker.claimed s.next_task_ s.total_tasks_ s.current_runnable_))
  /-- A worker calls `runTask` with the index it claimed. -/
  | call (s : Pool) (w : Nat) (i t : Int) (r : RunnablePtr)
      (hw : s.workers_[w]? = some (Worker.claimed i t r)) :
      Pool.Trans (Action.worker w) s (s.callRunTask w i t r)
  /-- A worker counts the completion of its call. -/
  | complete (s : Pool) (w : Nat) (hw : s.workers_[w]? = some Worker.ran) :
      Pool.Trans (Action.worker w) s (s.complete w)

/-- The invariant of the history of calls. -/
structure Pool.LogInv (s : Pool) : Prop where
  unpublished : s.published = [] → s.total_tasks_ = 0
  log_tag : ∀ e ∈ s.log, e.batch < s.published.length
  current : ∀ d, s.published[s.batchId]? = some d →
    d = (s.current_runnable_, s.total_tasks_)
  pending_desc : ∀ w ∈ s.workers_, ∀ i t r, w = Worker.claimed i t r →
    t = s.total_tasks_ ∧ r = s.current_runnable_
  log_desc : ∀ e ∈ s.log, ∀ d, s.published[e.batch]? = some d →
    e.runnable = d.1 ∧ e.total = d.2
  once : ∀ i, s.calls s.batchId i + s.workers_.countP (Worker.pending i) =
    if 0 ≤ i ∧ i < s.next_task_ then 1 else 0
  past : ∀ b d, b + 1 < s.published.length → s.published[b]? = some d →
    ∀ i, s.calls b i = if 0 ≤ i ∧ i < d.2 then 1 else 0

/-- The invariant of the history of claims. -/
structure Pool.ClaimInv (s : Pool) : Prop where
  claims_tag : ∀ c ∈ s.claims, c.batch < s.published.length
  order : s.claimed s.batchId = indexRange 0 s.next_task_
  past_order : ∀ b d, b + 1 < s.published.length → s.published[b]? = some d →
    s.claimed b = indexRange 0 d.2

/-- The three invariants together. -/
def Pool.Good (s : Pool) : Prop := s.Inv ∧ s.LogInv ∧ s.ClaimInv

/-! ## Statements about the calls of a batch -/

/-- Number of calls `runnable->runTask(i, n)` with runnable `r` that were made while
batch `b` was current. -/
def Pool.invoked (s : Pool) (b : Nat) (r : RunnablePtr) (i n : Int) : Nat :=
  s.log.count { batch := b, runnable := r, task_id := i, total := n }

/-- The calls made while batch `b` was current, in execution order. -/
def Pool.batchCalls (s : Pool) (b : Nat) : List Call :=
  (s.log.filter (fun e => decide (e.batch = b))).map (fun e => (e.task_id, e.total))

/-- Batch `b`, published as `run(r, n)`, has been run exactly once: `runTask(i, n)` was
called on `r` exactly once for every `i` in `[0, n)`, and every call made during the
batch is one of these. -/
def Pool.ExactlyOnce (s : Pool) (b : Nat) (r : RunnablePtr) (n : Int) : Prop :=
  (∀ i, 0 ≤ i → i < n → s.invoked b r i n = 1) ∧
  (∀ e ∈ s.log, e.batch = b →
    e.runnable = r ∧ e.total = n ∧ 0 ≤ e.task_id ∧ e.task_id < n)

/-- No worker is between a claim and the count of its completion. -/
def Pool.noneHeld (s : Pool) : Prop := ∀ w ∈ s.workers_, w.holding = false

/-! ## Sample executions

Three executions of a pool built with two threads, which both pools can perform. -/

/-- `run(7, 2)` is entered; worker 0 claims index 0; worker 1 claims index 1 and calls
`runTask(1, 2)`. -/
def midBatchTrace : List Action :=
  [Action.run 7 2, Action.worker 0, Action.worker 1, Action.worker 1]

/-- The state after `midBatchTrace`. -/
def midBatchState : Pool :=
  { num_threads_ := 2, current_runnable_ := some 7, total_tasks_ := 2, next_task_ := 2,
    completed_tasks_ := 0, has_work_ := true, shutting_down_ := false,
    workers_ := [Worker.claimed 0 2 (some 7), Worker.ran], caller := Caller.inRun,
    published := [(some 7, 2)],
    log := [{ batch := 0, runnable := some 7, task_id := 1, total := 2 }],
    claims := [{ batch := 0, worker := 0, task_id := 0 },
               { batch := 0, worker := 1, task_id := 1 }] }

/-- As `midBatchTrace`, then worker 0 calls `runTask(0, 2)` and both workers count
their completions: the batch is complete and the owner is still inside `run`. -/
def oneBatchTrace : List Action :=
  midBatchTrace ++ [Action.worker 0, Action.worker 1, Action.worker 0]

/-- The state after `oneBatchTrace`. -/
def oneBatchState : Pool :=
  { num_threads_ := 2, current_runnable_ := some 7, total_tasks_ := 2, next_task_ := 2,
    completed_tasks_ := 2, has_work_ := false, shutting_down_ := false,
    workers_ := [Worker.top, Worker.top], caller := Caller.inRun,
    published := [(some 7, 2)],
    log := [{ batch := 0, runnable := some 7, task_id := 1, total := 2 },
            { batch := 0, runnable := some 7, task_id := 0, total := 2 }],
    claims := [{ batch := 0, worker := 0, task_id := 0 },
               { batch := 0, worker := 1, task_id := 1 }] }

/-- As `oneBatchTrace`, then `run(7, 2)` returns, `run(8, 0)` returns at once, and
`run(8, 1)` is entered, served by worker 1, and returns. -/
def twoBatchTrace : List Action :=
  oneBatchTrace ++ [Action.poll, Action.run 8 0, Action.run 8 1, Action.worker 1,
    Action.worker 1, Action.worker 1, Action.poll]

/-- The state after `twoBatchTrace`. -/
def twoBatchState : Pool :=
  { num_threads_ := 2, current_runnable_ := some 8, total_tasks_ := 1, next_task_ := 1,
    completed_tasks_ := 1, has_work_ := false, shutting_down_ := false,
    workers_ := [Worker.top, Worker.top], caller := Caller.idle,
    published := [(some 7, 2), (some 8, 1)],
    log := [{ batch := 0, runnable := some 7, task_id := 1, total := 2 },
            { batch := 0, runnable := some 7, task_id := 0, total := 2 },
            { batch := 1, runnable := some 8, task_id := 0, total := 1 }],
    claims := [{ batch := 0, worker := 0, task_id := 0 },
               { batch := 0, worker := 1, task_id := 1 },
               { batch := 1, worker := 1, task_id := 0 }] }


/-! ## Loops as index ranges -/

theorem indexRange_of_le {lo hi : Int} (h : hi ≤ lo) : indexRange lo hi = [] := by
  have : (hi - lo).toNat = 0 := by omega
  simp [indexRange, this]

theorem indexRange_step {lo hi : Int} (h : lo < hi) :
    indexRange lo hi = lo :: indexRange (lo + 1) hi := by
  obtain ⟨m, hm⟩ : ∃ m, (hi - lo).toNat = m + 1 := ⟨(hi - lo).toNat - 1, by omega⟩
  have hm2 : (hi - (lo + 1)).toNat = m := by omega
  simp only [indexRange, hm, hm2, List.range_succ_eq_map, List.map_cons, List.map_map]
  refine congrArg₂ _ (by simp) (List.map_congr_left ?_)
  intro k _
  simp only [Function.comp, Nat.succ_eq_add_one, Int.ofNat_eq_coe]
  push_cast
  ring

theorem mem_indexRange {lo hi j : Int} : j ∈ indexRange lo hi ↔ lo ≤ j ∧ j < hi := by
  simp only [indexRange, List.mem_map, List.mem_range]
  constructor
  · rintro ⟨k, hk, rfl⟩
    omega
  · intro h
    exact ⟨(j - lo).toNat, by omega, by omega⟩

theorem indexRange_nodup (lo hi : Int) : (indexRange lo hi).Nodup := by
  unfold indexRange
  refine (List.nodup_range _).map ?_
  intro a b hab
  simpa using hab

theorem indexRange_append {lo mid hi : Int} (h1 : lo ≤ mid) (h2 : mid ≤ hi) :
    indexRange lo mid ++ indexRange mid hi = indexRange lo hi := by
  obtain ⟨m, hm⟩ : ∃ m : Nat, (mid - lo).toNat = m := ⟨_, rfl⟩
  induction m generalizing lo with
  | zero =>
      have : lo = mid := by omega
      subst this
      simp [indexRange_of_le (le_refl lo)]
  | succ m ih =>
      have hlt : lo < mid := by omega
      rw [indexRange_step hlt, indexRange_step (lt_of_lt_of_le hlt h2), List.cons_append,
        ih (by omega) (by omega)]

theorem forLoop_eq_foldl {σ : Type} (body : Int → σ → σ) (hi i : Int) (st : σ) :
    forLoop body hi i st = (indexRange i hi).foldl (fun acc j => body j acc) st := by
  obtain ⟨m, hm⟩ : ∃ m : Nat, (hi - i).toNat = m := ⟨_, rfl⟩
  induction m generalizing i st with
  | zero =>
      have hle : hi ≤ i := by omega
      rw [forLoop, if_neg (by omega), indexRange_of_le hle]
      rfl
  | succ m ih =>
      have hlt : i < hi := by omega
      rw [forLoop, if_pos hlt, ih (i + 1) _ (by omega), indexRange_step hlt]
      rfl

theorem forLoop_recorder (n hi i : Int) (log : List Call) :
    forLoop (fun j => recorder.runTask j n) hi i log = log ++ callRange i hi n := by
  rw [forLoop_eq_foldl, callRange]
  generalize indexRange i hi = l
  induction l generalizing log with
  | nil => simp
  | cons a l ih =>
      rw [List.foldl_cons, ih]
      simp [recorder]

theorem serial_run_eq_replay {σ : Type} (runnable : IRunnable σ) (n : Int) (st : σ) :
    TaskSystemSerial.run runnable n st = replay runnable (callRange 0 n n) st := by
  rw [TaskSystemSerial.run, forLoop_eq_foldl, replay, callRange, List.foldl_map]

theorem serial_run_recorder (n : Int) :
    TaskSystemSerial.run recorder n [] = callRange 0 n n := by
  rw [TaskSystemSerial.run, forLoop_recorder, List.nil_append]

theorem countP_set_getElem? {α : Type} (p : α → Bool) {l : List α} {w : Nat} {y : α}
    (x : α) (h : l[w]? = some y) :
    (l.set w x).countP p + (if p y then 1 else 0) = l.countP p + (if p x then 1 else 0) := by
  induction l generalizing w with
  | nil => simp at h
  | cons a l ih =>
      cases w with
      | zero =>
          simp only [List.getElem?_cons_zero, Option.some.injEq] at h
          subst h
          simp only [List.set_cons_zero, List.countP_cons]
          omega
      | succ w =>
          simp only [List.getElem?_cons_succ] at h
          have := ih h
          simp only [List.set_cons_succ, List.countP_cons]
          omega

theorem pending_le_held (s : Pool) (i : Int) :
    s.workers_.countP (Worker.pending i) ≤ s.held := by
  unfold Pool.held
  apply List.countP_mono_left
  intro w _ hw
  cases w <;> simp_all [Worker.pending, Worker.holding]

theorem Pool.construct_inv (num_threads : Int) : (Pool.construct num_threads).Inv := by
  constructor <;> simp [Pool.construct, Pool.held, Worker.holding]

theorem Pool.enterRun_inv {s s1 : Pool} {r : Nat} {n : Int} (h : s.Inv)
    (hs : s.enterRun r n = some s1) : s1.Inv := by
  unfold Pool.enterRun at hs
  split at hs
  · rename_i hc
    split at hs
    · cases hs; exact h
    · rename_i hn
      cases hs
      have h1 := h.idle_done (by rw [hc.1]; decide)
      have h2 := h.held_eq
      have h3 := h.next_le
      have h4 := hc.2
      simp only [isInt32, INT_MIN, INT_MAX] at h4
      refine ⟨?_, ?_, ?_, ?_, ?_, ?_⟩ <;> simp only [Pool.publish, Pool.held] at *
      · omega
      · omega
      · omega
      · omega
      · simp only [true_iff]; omega
      · simp
  · cases hs

theorem Pool.destroy_inv {s s1 : Pool} (h : s.Inv) (hs : s.destroy = some s1) : s1.Inv := by
  unfold Pool.destroy at hs
  split at hs
  · rename_i hc
    cases hs
    have h1 := h.idle_done (by rw [hc]; decide)
    exact ⟨h.total_le, h.completed_nonneg, h.held_eq, h.next_le, h.has_work_iff, fun _ => h1⟩
  · cases hs

theorem Pool.setWorker_inv {s : Pool} {w : Nat} {y x : Worker} (h : s.Inv)
    (hw : s.workers_[w]? = some y) (hxy : x.holding = y.holding) : (s.setWorker w x).Inv := by
  have hc := countP_set_getElem? Worker.holding x hw
  rw [hxy] at hc
  have hheld : (s.setWorker w x).held = s.held := by
    simp only [Pool.held, Pool.setWorker]
    omega
  exact ⟨h.total_le, h.completed_nonneg, by rw [hheld]; exact h.held_eq, h.next_le,
    h.has_work_iff, h.idle_done⟩

theorem Pool.next_nonneg {s : Pool} (h : s.Inv) : 0 ≤ s.next_task_ := by
  have h1 := h.completed_nonneg
  have h2 := h.held_eq
  omega

theorem Pool.claim_inv {s : Pool} {w : Nat} (h : s.Inv) (hw : s.workers_[w]? = some Worker.top)
    (hlt : s.next_task_ < s.total_tasks_) :
    ((s.claimNext w).setWorker w
      (Worker.claimed s.next_task_ s.total_tasks_ s.current_runnable_)).Inv := by
  have hc := countP_set_getElem? Worker.holding
    (Worker.claimed s.next_task_ s.total_tasks_ s.current_runnable_) hw
  simp only [Worker.holding, if_true, Bool.false_eq_true, if_false] at hc
  have h1 := h.total_le
  have h2 := h.completed_nonneg
  have h3 := h.held_eq
  have h5 := h.has_work_iff
  have h6 := h.idle_done
  refine ⟨?_, ?_, ?_, ?_, ?_, ?_⟩ <;>
    simp only [Pool.claimNext, Pool.setWorker, Pool.held, wrap32] at *
  · omega
  · omega
  · omega
  · omega
  · exact h5
  · intro hcaller
    have := h6 hcaller
    omega

theorem Pool.callRunTask_inv {s : Pool} {w : Nat} {i t : Int} {r : RunnablePtr} (h : s.Inv)
    (hw : s.workers_[w]? = some (Worker.claimed i t r)) : (s.callRunTask w i t r).Inv := by
  have hc := countP_set_getElem? Worker.holding Worker.ran hw
  simp only [Worker.holding, if_true] at hc
  have h3 := h.held_eq
  refine ⟨h.total_le, h.completed_nonneg, ?_, h.next_le, h.has_work_iff, h.idle_done⟩
  simp only [Pool.callRunTask, Pool.held] at *
  omega

theorem Pool.complete_inv {s : Pool} {w : Nat} (h : s.Inv)
    (hw : s.workers_[w]? = some Worker.ran) : (s.complete w).Inv := by
  have hc := countP_set_getElem? Worker.holding Worker.top hw
  simp only [Worker.holding, if_true, Bool.false_eq_true, if_false] at hc
  have h1 := h.total_le
  have h2 := h.completed_nonneg
  have h3 := h.held_eq
  have h4 := h.next_le
  have h5 := h.has_work_iff
  have h6 := h.idle_done
  refine ⟨?_, ?_, ?_, ?_, ?_, ?_⟩ <;>
    simp only [Pool.complete, Pool.setWorker, Pool.held, wrap32] at *
  · omega
  · omega
  · omega
  · omega
  · split
    · rename_i heq
      simp only [Bool.false_eq_true, false_iff, not_not]
      exact heq
    · rename_i hne
      rw [h5]
      constructor
      · intro _; exact hne
      · intro _; omega
  · intro hcaller
    have := h6 hcaller
    omega

/-! ## Every step of either pool is an atomic transition -/

theorem Pool.enterRun_trans {s s1 : Pool} {r : Nat} {n : Int}
    (hs : s.enterRun r n = some s1) : Pool.Trans (Action.run r n) s s1 := by
  unfold Pool.enterRun at hs
  split at hs
  · rename_i hc
    split at hs
    · cases hs; exact Pool.Trans.stay _ s
    · cases hs; exact Pool.Trans.publish s r n hc.1 hc.2 (by omega)
  · cases hs

theorem Pool.destroy_trans {s s1 : Pool} (hs : s.destroy = some s1) :
    Pool.Trans Action.destroy s s1 := by
  unfold Pool.destroy at hs
  split at hs
  · rename_i hc
    cases hs; exact Pool.Trans.destroy s hc
  · cases hs

theorem spinning_step_trans {a : Action} {s s1 : Pool}
    (h : s.Inv) (hs : TaskSystemParallelThreadPoolSpinning.step a s = some s1) :
    Pool.Trans a s s1 := by
  cases a with
  | run r n => exact Pool.enterRun_trans hs
  | destroy => exact Pool.destroy_trans hs
  | poll =>
      simp only [TaskSystemParallelThreadPoolSpinning.step,
        TaskSystemParallelThreadPoolSpinning.runPoll] at hs
      split at hs
      · rename_i hc
        split at hs
        · rename_i hd
          cases hs
          exact Pool.Trans.finish s hc hd
        · cases hs; exact Pool.Trans.stay _ s
      · cases hs
  | worker w =>
      simp only [TaskSystemParallelThreadPoolSpinning.step,
        TaskSystemParallelThreadPoolSpinning.workerLoop] at hs
      split at hs
      · cases hs
      · cases hs
      · rename_i hw
        split at hs
        · rename_i hsd
          cases hs
          exact Pool.Trans.exit s w hw hsd
        · rename_i hsd
          split at hs
          · rename_i hwork
            simp only [Bool.and_eq_true, decide_eq_true_eq] at hwork
            split at hs
            · rename_i hneg
              have := Pool.next_nonneg h
              omega
            · cases hs
              exact Pool.Trans.claim s w hw (by simpa using hsd) hwork.1 hwork.2
          · cases hs; exact Pool.Trans.stay _ s
      · rename_i hw
        cases hs
        exact Pool.Trans.call s w _ _ _ hw
      · rename_i hw
        cases hs
        exact Pool.Trans.complete s w hw

theorem sleeping_step_trans {a : Action} {s s1 : Pool}
    (hs : TaskSystemParallelThreadPoolSleeping.step a s = some s1) :
    Pool.Trans a s s1 := by
  cases a with
  | run r n => exact Pool.enterRun_trans hs
  | destroy => exact Pool.destroy_trans hs
  | poll =>
      simp only [TaskSystemParallelThreadPoolSleeping.step,
        TaskSystemParallelThreadPoolSleeping.runWait] at hs
      split at hs
      · rename_i hc
        split at hs
        · rename_i hd
          cases hs
          exact Pool.Trans.finish s hc hd
        · cases hs
      · cases hs
  | worker w =>
      simp only [TaskSystemParallelThreadPoolSleeping.step,
        TaskSystemParallelThreadPoolSleeping.workerLoop] at hs
      split at hs
      · cases hs
      · cases hs
      · rename_i hw
        split at hs
        · rename_i hav
          split at hs
          · rename_i hsd
            cases hs
            exact Pool.Trans.exit s w hw hsd
          · rename_i hsd
            cases hs
            simp only [Bool.not_eq_true] at hsd
            simp only [Pool.workAvailable, hsd, Bool.false_or, Bool.and_eq_true,
              decide_eq_true_eq] at hav
            exact Pool.Trans.claim s w hw hsd hav.1 hav.2
        · cases hs
      · rename_i hw
        cases hs
        exact Pool.Trans.call s w _ _ _ hw
      · rename_i hw
        cases hs
        exact Pool.Trans.complete s w hw

/-! ## The numeric invariant is preserved -/

theorem Pool.Trans.inv {a : Action} {s s1 : Pool} (t : Pool.Trans a s s1) (h : s.Inv) : s1.Inv := by
  cases t with
  | stay _ => exact h
  | publish _ r n hc hint hn =>
      apply Pool.enterRun_inv h (r := r) (n := n)
      simp [Pool.enterRun, hc, hint, not_le.2 hn]
  | finish _ hc hd =>
      simp only [Pool.done, Bool.and_eq_true, beq_iff_eq] at hd
      exact ⟨h.total_le, h.completed_nonneg, h.held_eq, h.next_le, h.has_work_iff,
        fun _ => hd.1⟩
  | destroy _ hc =>
      apply Pool.destroy_inv h
      simp [Pool.destroy, hc]
  | exit _ w hw hsd => exact Pool.setWorker_inv h hw rfl
  | claim _ w hw hsd hwork hlt => exact Pool.claim_inv h hw hlt
  | call _ w i t r hw => exact Pool.callRunTask_inv h hw
  | complete _ w hw => exact Pool.complete_inv h hw


/-! ## The history of calls -/

theorem Pool.held_eq_zero {s : Pool} (h : s.Inv) (hd : s.completed_tasks_ = s.total_tasks_) :
    s.held = 0 := by
  have h1 := h.held_eq
  have h2 := h.next_le
  omega

theorem Pool.not_holding_of_held_eq_zero {s : Pool} (h0 : s.held = 0) :
    ∀ w ∈ s.workers_, w.holding = false := by
  intro w hw
  have := List.countP_eq_zero.1 h0 w hw
  simpa using this

theorem Pool.pending_eq_zero {s : Pool} (h0 : s.held = 0) (i : Int) :
    s.workers_.countP (Worker.pending i) = 0 := by
  have := pending_le_held s i
  omega

theorem Pool.published_ne_nil_of_lt {s : Pool} (hl : s.LogInv)
    (hlt : s.next_task_ < s.total_tasks_) (hn : 0 ≤ s.next_task_) : s.published ≠ [] := by
  intro hp
  have := hl.unpublished hp
  omega

theorem Pool.batchId_lt {s : Pool} (hp : s.published ≠ []) :
    s.batchId < s.published.length := by
  have := List.length_pos.2 hp
  unfold Pool.batchId
  omega

theorem Pool.calls_eq_zero_of_tag {s : Pool} (hl : s.LogInv) {b : Nat}
    (hb : s.published.length ≤ b) (i : Int) : s.calls b i = 0 := by
  unfold Pool.calls
  rw [List.countP_eq_zero]
  intro e he
  have := hl.log_tag e he
  simp only [Bool.and_eq_true, decide_eq_true_eq, not_and]
  intro hbe
  omega

theorem Pool.Trans.logInv {a : Action} {s s1 : Pool} (t : Pool.Trans a s s1) (h : s.Inv)
    (hl : s.LogInv) :
    s1.LogInv := by
  cases t with
  | stay _ => exact hl
  | finish _ hc hd => exact ⟨hl.unpublished, hl.log_tag, hl.current, hl.pending_desc, hl.log_desc,
      hl.once, hl.past⟩
  | destroy _ hc => exact ⟨hl.unpublished, hl.log_tag, hl.current, hl.pending_desc, hl.log_desc,
      hl.once, hl.past⟩
  | exit _ w hw hsd =>
      refine ⟨hl.unpublished, hl.log_tag, hl.current, ?_, hl.log_desc, ?_, hl.past⟩
      · intro x hx i t r hxe
        simp only [Pool.setWorker] at hx
        rcases List.mem_or_eq_of_mem_set hx with hx | hx
        · exact hl.pending_desc x hx i t r hxe
        · rw [hx] at hxe; cases hxe
      · intro i
        have hc := countP_set_getElem? (Worker.pending i) Worker.exited hw
        have := hl.once i
        simp only [Worker.pending, Bool.false_eq_true, if_false] at hc
        simp only [Pool.setWorker, Pool.calls, Pool.batchId] at *
        omega
  | complete _ w hw =>
      refine ⟨hl.unpublished, hl.log_tag, hl.current, ?_, hl.log_desc, ?_, hl.past⟩
      · intro x hx i t r hxe
        simp only [Pool.complete] at hx
        rcases List.mem_or_eq_of_mem_set hx with hx | hx
        · exact hl.pending_desc x hx i t r hxe
        · rw [hx] at hxe; cases hxe
      · intro i
        have hc := countP_set_getElem? (Worker.pending i) Worker.top hw
        have := hl.once i
        simp only [Worker.pending, Bool.false_eq_true, if_false] at hc
        simp only [Pool.complete, Pool.calls, Pool.batchId] at *
        omega
  | claim _ w hw hsd hwork hlt =>
      have hnn := Pool.next_nonneg h
      have htot := h.total_le
      refine ⟨hl.unpublished, hl.log_tag, hl.current, ?_, hl.log_desc, ?_, hl.past⟩
      · intro x hx i t r hxe
        simp only [Pool.setWorker, Pool.claimNext] at hx
        rcases List.mem_or_eq_of_mem_set hx with hx | hx
        · exact hl.pending_desc x hx i t r hxe
        · rw [hx] at hxe
          cases hxe
          exact ⟨rfl, rfl⟩
      · intro i
        have hc := countP_set_getElem? (Worker.pending i)
          (Worker.claimed s.next_task_ s.total_tasks_ s.current_runnable_) hw
        have h1 := hl.once i
        have h2 := hl.once s.next_task_
        simp only [Worker.pending, Bool.false_eq_true, if_false, decide_eq_true_eq] at hc
        simp only [Pool.setWorker, Pool.claimNext, Pool.calls, Pool.batchId, wrap32] at *
        by_cases hi : s.next_task_ = i
        · subst hi
          rw [if_pos rfl] at hc
          rw [if_neg (by omega)] at h1
          rw [if_pos (by omega)]
          omega
        · rw [if_neg hi] at hc
          split at h1 <;> split <;> omega
  | call _ w i t r hw =>
      have hnn := Pool.next_nonneg h
      have hmem : Worker.claimed i t r ∈ s.workers_ := List.getElem?_mem hw
      have hdesc := hl.pending_desc _ hmem i t r rfl
      have hheld : 0 < s.held := by
        unfold Pool.held
        exact List.countP_pos_iff.2 ⟨_, hmem, rfl⟩
      have hpub : s.published ≠ [] := by
        intro hp
        have h1 := hl.unpublished hp
        have h2 := h.held_eq
        have h3 := h.next_le
        have h4 := h.completed_nonneg
        omega
      have hb := Pool.batchId_lt hpub
      refine ⟨hl.unpublished, ?_, hl.current, ?_, ?_, ?_, ?_⟩
      · intro e he
        simp only [Pool.callRunTask, List.mem_append, List.mem_singleton] at he
        rcases he with he | he
        · exact hl.log_tag e he
        · subst he; exact hb
      · intro x hx i2 t2 r2 hxe
        simp only [Pool.callRunTask] at hx
        rcases List.mem_or_eq_of_mem_set hx with hx | hx
        · exact hl.pending_desc x hx i2 t2 r2 hxe
        · rw [hx] at hxe; cases hxe
      · intro e he d hd
        simp only [Pool.callRunTask, List.mem_append, List.mem_singleton] at he hd
        rcases he with he | he
        · exact hl.log_desc e he d hd
        · subst he
          have := hl.current d hd
          subst this
          exact ⟨hdesc.2, hdesc.1⟩
      · intro j
        have hc := countP_set_getElem? (Worker.pending j) Worker.ran hw
        have h1 := hl.once j
        simp only [Worker.pending, Bool.false_eq_true, if_false, decide_eq_true_eq] at hc
        simp only [Pool.callRunTask, Pool.calls, Pool.batchId, List.countP_append,
          List.countP_singleton, decide_True, Bool.true_and, decide_eq_true_eq] at *
        split at hc <;> split at h1 <;> split <;> omega
      · intro b d hbl hd j
        have h1 := hl.past b d hbl hd j
        have hne : ¬ (s.batchId = b) := by
          unfold Pool.batchId; simp only [Pool.callRunTask] at hbl; omega
        simp only [Pool.callRunTask, Pool.calls, List.countP_append, List.countP_singleton,
          hne, decide_False, Bool.false_and, Bool.false_eq_true, if_false, Nat.add_zero] at *
        exact h1
  | publish _ r n hc hint hn =>
      have hdone := h.idle_done (by rw [hc]; decide)
      have h0 := Pool.held_eq_zero h hdone
      have hnext : s.next_task_ = s.total_tasks_ := by
        have h1 := h.held_eq
        omega
      have hlen : (s.publish r n).published.length = s.published.length + 1 := by
        simp [Pool.publish]
      have hbid : (s.publish r n).batchId = s.published.length := by
        simp [Pool.batchId, Pool.publish]
      refine ⟨?_, ?_, ?_, ?_, ?_, ?_, ?_⟩
      · intro hp
        simp [Pool.publish] at hp
      · intro e he
        have := hl.log_tag e he
        omega
      · intro d hd
        rw [hbid] at hd
        simp only [Pool.publish, List.getElem?_concat_length, Option.some.injEq] at hd
        rw [← hd]
        rfl
      · intro x hx i t r2 hxe
        have := Pool.not_holding_of_held_eq_zero h0 x hx
        rw [hxe] at this
        simp [Worker.holding] at this
      · intro e he d hd
        have hlt := hl.log_tag e he
        simp only [Pool.publish] at hd he
        rw [List.getElem?_append_left hlt] at hd
        exact hl.log_desc e he d hd
      · intro i
        rw [hbid]
        have h1 := Pool.calls_eq_zero_of_tag hl (le_refl s.published.length) i
        have h2 := Pool.pending_eq_zero h0 i
        simp only [Pool.publish, Pool.calls] at *
        rw [h1, h2, if_neg (by omega)]
      · intro b d hbl hd i
        rw [hlen] at hbl
        simp only [Pool.publish] at hd
        rw [List.getElem?_append_left (by omega)] at hd
        by_cases hb : b + 1 < s.published.length
        · exact hl.past b d hb hd i
        · have hbe : b = s.batchId := by unfold Pool.batchId; omega
          subst hbe
          have hcur := hl.current d hd
          have h1 := hl.once i
          have h2 := Pool.pending_eq_zero h0 i
          subst hcur
          simp only [Pool.publish, Pool.calls] at *
          rw [h2, hnext] at h1
          exact h1

/-! ## The history of claims -/

theorem indexRange_snoc {n : Int} (h : 0 ≤ n) :
    indexRange 0 n ++ [n] = indexRange 0 (n + 1) := by
  have h1 : indexRange n (n + 1) = [n] := by
    rw [indexRange_step (by omega), indexRange_of_le (le_refl _)]
  rw [← h1, indexRange_append h (by omega)]

theorem Pool.claimed_eq_nil_of_tag {s : Pool} (hc : s.ClaimInv) {b : Nat}
    (hb : s.published.length ≤ b) : s.claimed b = [] := by
  unfold Pool.claimed
  rw [List.map_eq_nil_iff, List.filter_eq_nil_iff]
  intro c hmem
  have := hc.claims_tag c hmem
  simp only [decide_eq_true_eq]
  omega

theorem Pool.Trans.claimInv {a : Action} {s s1 : Pool} (t : Pool.Trans a s s1) (h : s.Inv)
    (hl : s.LogInv)
    (hc : s.ClaimInv) : s1.ClaimInv := by
  cases t with
  | stay _ => exact hc
  | finish _ hcl hd => exact ⟨hc.claims_tag, hc.order, hc.past_order⟩
  | destroy _ hcl => exact ⟨hc.claims_tag, hc.order, hc.past_order⟩
  | exit _ w hw hsd => exact ⟨hc.claims_tag, hc.order, hc.past_order⟩
  | complete _ w hw => exact ⟨hc.claims_tag, hc.order, hc.past_order⟩
  | call _ w i t r hw => exact ⟨hc.claims_tag, hc.order, hc.past_order⟩
  | claim _ w hw hsd hwork hlt =>
      have hnn := Pool.next_nonneg h
      have htot := h.total_le
      have hb := Pool.batchId_lt (Pool.published_ne_nil_of_lt hl hlt hnn)
      refine ⟨?_, ?_, ?_⟩
      · intro c hmem
        simp only [Pool.setWorker, Pool.claimNext, List.mem_append, List.mem_singleton] at hmem
        rcases hmem with hmem | hmem
        · exact hc.claims_tag c hmem
        · subst hmem; exact hb
      · have h1 := hc.order
        have hw32 : wrap32 (s.next_task_ + 1) = s.next_task_ + 1 := by
          unfold wrap32; omega
        simp only [Pool.setWorker, Pool.claimNext, Pool.claimed, Pool.batchId,
          List.filter_append, List.map_append, hw32] at *
        rw [h1, ← indexRange_snoc hnn]
        simp
      · intro b d hbl hd
        have h1 := hc.past_order b d hbl hd
        have hne : ¬ (s.batchId = b) := by
          unfold Pool.batchId; simp only [Pool.setWorker, Pool.claimNext] at hbl; omega
        simp only [Pool.setWorker, Pool.claimNext, Pool.claimed, List.filter_append,
          List.map_append] at *
        rw [h1]
        simp [hne]
  | publish _ r n hcl hint hn =>
      have hdone := h.idle_done (by rw [hcl]; decide)
      have h0 := Pool.held_eq_zero h hdone
      have hnext : s.next_task_ = s.total_tasks_ := by
        have h1 := h.held_eq
        omega
      have hlen : (s.publish r n).published.length = s.published.length + 1 := by
        simp [Pool.publish]
      have hbid : (s.publish r n).batchId = s.published.length := by
        simp [Pool.batchId, Pool.publish]
      refine ⟨?_, ?_, ?_⟩
      · intro c hmem
        have := hc.claims_tag c hmem
        omega
      · rw [hbid]
        have h1 := Pool.claimed_eq_nil_of_tag hc (le_refl s.published.length)
        simp only [Pool.publish, Pool.claimed] at *
        rw [h1, indexRange_of_le (le_refl _)]
      · intro b d hbl hd
        rw [hlen] at hbl
        simp only [Pool.publish] at hd
        rw [List.getElem?_append_left (by omega)] at hd
        by_cases hb : b + 1 < s.published.length
        · exact hc.past_order b d hb hd
        · have hbe : b = s.batchId := by unfold Pool.batchId; omega
          subst hbe
          have hcur := hl.current d hd
          have h1 := hc.order
          subst hcur
          simp only [Pool.publish, Pool.claimed] at *
          rw [h1, hnext]

/-! ## Reachable states satisfy the invariants -/

theorem Pool.construct_logInv (num_threads : Int) : (Pool.construct num_threads).LogInv := by
  refine ⟨?_, ?_, ?_, ?_, ?_, ?_, ?_⟩ <;>
    simp [Pool.construct, Pool.calls, Pool.batchId, Worker.pending]
  intro i
  rw [if_neg (by omega), List.countP_eq_zero]
  intro w hw
  rw [List.eq_of_mem_replicate hw]
  simp [Worker.pending]

theorem Pool.construct_claimInv (num_threads : Int) :
    (Pool.construct num_threads).ClaimInv := by
  refine ⟨?_, ?_, ?_⟩ <;> simp [Pool.construct, Pool.claimed, indexRange]

theorem Pool.construct_good (num_threads : Int) : (Pool.construct num_threads).Good :=
  ⟨Pool.construct_inv num_threads, Pool.construct_logInv num_threads,
    Pool.construct_claimInv num_threads⟩

theorem Pool.Trans.good {a : Action} {s s1 : Pool} (t : Pool.Trans a s s1) (h : s.Good) : s1.Good :=
  ⟨t.inv h.1, t.logInv h.1 h.2.1, t.claimInv h.1 h.2.1 h.2.2⟩

theorem exec_good {step : Action → Pool → Option Pool}
    (hstep : ∀ a s s1, s.Inv → step a s = some s1 → Pool.Trans a s s1)
    {acts : List Action} {s s1 : Pool} (h : s.Good) (hs : exec step acts s = some s1) :
    s1.Good := by
  induction acts generalizing s with
  | nil =>
      simp only [exec, Option.some.injEq] at hs
      subst hs
      exact h
  | cons a rest ih =>
      simp only [exec] at hs
      split at hs
      · rename_i s2 h2
        exact ih ((hstep a s s2 h.1 h2).good h) hs
      · cases hs

theorem spinning_reachable_good {num_threads : Int} {s : Pool}
    (h : TaskSystemParallelThreadPoolSpinning.Reachable num_threads s) : s.Good := by
  obtain ⟨acts, hacts⟩ := h
  exact exec_good (fun _ _ _ hi hs => spinning_step_trans hi hs)
    (Pool.construct_good num_threads) hacts

theorem sleeping_reachable_good {num_threads : Int} {s : Pool}
    (h : TaskSystemParallelThreadPoolSleeping.Reachable num_threads s) : s.Good := by
  obtain ⟨acts, hacts⟩ := h
  exact exec_good (fun _ _ _ _ hs => sleeping_step_trans hs)
    (Pool.construct_good num_threads) hacts

/-! ## Exactly-once execution of a batch -/

theorem Pool.exactlyOnce_of_calls {s : Pool} (hl : s.LogInv) {b : Nat} {r : RunnablePtr}
    {n : Int} (hd : s.published[b]? = some (r, n))
    (hcalls : ∀ i, s.calls b i = if 0 ≤ i ∧ i < n then 1 else 0) : s.ExactlyOnce b r n := by
  have hdesc : ∀ e ∈ s.log, e.batch = b → e.runnable = r ∧ e.total = n := by
    intro e he hb
    subst hb
    exact hl.log_desc e he (r, n) hd
  constructor
  · intro i h0 h1
    have h2 := hcalls i
    rw [if_pos ⟨h0, h1⟩] at h2
    rw [← h2]
    unfold Pool.invoked Pool.calls
    rw [List.count_eq_countP]
    apply List.countP_congr
    intro e he
    simp only [beq_iff_eq, Bool.and_eq_true, decide_eq_true_eq]
    constructor
    · intro h; subst h; exact ⟨rfl, rfl⟩
    · rintro ⟨hb, hi⟩
      have := hdesc e he hb
      cases e
      simp_all
  · intro e he hb
    refine ⟨(hdesc e he hb).1, (hdesc e he hb).2, ?_⟩
    by_contra hcon
    have h2 := hcalls e.task_id
    rw [if_neg (by omega)] at h2
    unfold Pool.calls at h2
    rw [List.countP_eq_zero] at h2
    have := h2 e he
    simp [hb] at this

theorem Pool.done_iff {s : Pool} (h : s.Inv) :
    s.done = true ↔ s.completed_tasks_ = s.total_tasks_ := by
  have := h.has_work_iff
  simp only [Pool.done, Bool.and_eq_true, beq_iff_eq, Bool.not_eq_true']
  constructor
  · intro hd; exact hd.1
  · intro hd
    refine ⟨hd, ?_⟩
    cases hw : s.has_work_
    · rfl
    · exact absurd hd (this.1 hw)

theorem Pool.idle_of_done {s : Pool} (h : s.Inv) (hd : s.done = true) :
    s.next_task_ = s.total_tasks_ ∧ s.noneHeld := by
  have hc := (Pool.done_iff h).1 hd
  have h0 := Pool.held_eq_zero h hc
  have h1 := h.held_eq
  exact ⟨by omega, Pool.not_holding_of_held_eq_zero h0⟩

theorem Pool.exactlyOnce_current {s : Pool} (hg : s.Good) {r : RunnablePtr} {n : Int}
    (hpub : s.published.getLast? = some (r, n)) (hd : s.done = true) :
    s.ExactlyOnce s.batchId r n := by
  rw [List.getLast?_eq_getElem?] at hpub
  have hcur := hg.2.1.current (r, n) hpub
  have hidle := Pool.idle_of_done hg.1 hd
  have h0 := Pool.held_eq_zero hg.1 ((Pool.done_iff hg.1).1 hd)
  apply Pool.exactlyOnce_of_calls hg.2.1 hpub
  intro i
  have h1 := hg.2.1.once i
  rw [Pool.pending_eq_zero h0 i, hidle.1] at h1
  simp only [Prod.mk.injEq] at hcur
  rw [hcur.2]
  exact h1

theorem Pool.exactlyOnce_completed {s : Pool} (hg : s.Good) {b : Nat} {r : RunnablePtr}
    {n : Int} (hpub : s.published[b]? = some (r, n))
    (hcompl : b + 1 < s.published.length ∨ s.done = true) : s.ExactlyOnce b r n := by
  by_cases hb : b + 1 < s.published.length
  · exact Pool.exactlyOnce_of_calls hg.2.1 hpub (hg.2.1.past b (r, n) hb hpub)
  · have hd : s.done = true := hcompl.resolve_left hb
    have hlt : b < s.published.length := (List.getElem?_eq_some.1 hpub).1
    have hbe : b = s.batchId := by unfold Pool.batchId; omega
    subst hbe
    apply Pool.exactlyOnce_current hg _ hd
    rw [List.getLast?_eq_getElem?]
    exact hpub

/-- C1: in every state the spinning pool can reach in which the batch published last
by `run(r, n)`, `n > 0`, satisfies the exit condition of `run`
(`completed_tasks_ == total_tasks_ && !has_work_`), `runTask(i, n)` has been called on
`r` exactly once for every `i` in `[0, n)`, and no other call was made during the
batch. -/
theorem C1_spinning_run_exactly_once (num_threads : Int) (s : Pool) (r : RunnablePtr)
    (n : Int) (hn : 0 < n)
    (hreach : TaskSystemParallelThreadPoolSpinning.Reachable num_threads s)
    (hpub : s.published.getLast? = some (r, n)) (hdone : s.done = true) :
    (∀ i, 0 ≤ i → i < n → s.invoked s.batchId r i n = 1) ∧
    (∀ e ∈ s.log, e.batch = s.batchId →
      e.runnable = r ∧ e.total = n ∧ 0 ≤ e.task_id ∧ e.task_id < n) :=
  have _ := hn
  Pool.exactlyOnce_current (spinning_reachable_good hreach)
    hpub hdone

/-- C2: in every state the sleeping pool can reach (a worker claims only when its wait
predicate holds and `shutting_down_` is false) in which the batch published last by
`run(r, n)`, `n > 0`, satisfies the wait predicate of `run`
(`completed_tasks_ == total_tasks_ && !has_work_`), `runTask(i, n)` has been called on
`r` exactly once for every `i` in `[0, n)`, and no other call was made during the
batch. -/
theorem C2_sleeping_run_exactly_once (num_threads : Int) (s : Pool) (r : RunnablePtr)
    (n : Int) (hn : 0 < n)
    (hreach : TaskSystemParallelThreadPoolSleeping.Reachable num_threads s)
    (hpub : s.published.getLast? = some (r, n)) (hdone : s.done = true) :
    (∀ i, 0 ≤ i → i < n → s.invoked s.batchId r i n = 1) ∧
    (∀ e ∈ s.log, e.batch = s.batchId →
      e.runnable = r ∧ e.total = n ∧ 0 ≤ e.task_id ∧ e.task_id < n) :=
  have _ := hn
  Pool.exactlyOnce_current (sleeping_reachable_good hreach)
    hpub hdone

/-! ## What a single step can change -/

theorem Pool.Trans.next_task_effect {a : Action} {s s1 : Pool} (t : Pool.Trans a s s1)
    (h : s.Inv) :
    s.next_task_ ≤ s1.next_task_ ∨
      ∃ r n, a = Action.run r n ∧ 0 < n ∧ s1 = s.publish r n ∧ s1.next_task_ = 0 := by
  have h1 := h.total_le
  have h0 := Pool.next_nonneg h
  cases t with
  | stay _ => exact Or.inl (le_refl _)
  | publish _ r n hc hint hn => exact Or.inr ⟨r, n, rfl, hn, rfl, rfl⟩
  | finish _ hc hd => exact Or.inl (le_refl _)
  | destroy _ hc => exact Or.inl (le_refl _)
  | exit _ w hw hsd => exact Or.inl (le_refl _)
  | claim _ w hw hsd hwork hlt =>
      left
      simp only [Pool.setWorker, Pool.claimNext, wrap32]
      omega
  | call _ w i t r hw => exact Or.inl (le_refl _)
  | complete _ w hw => exact Or.inl (le_refl _)

theorem Pool.Trans.claims_effect {a : Action} {s s1 : Pool} (t : Pool.Trans a s s1)
    (h : s.Inv) :
    s1.claims = s.claims ∨
      ∃ w, a = Action.worker w ∧ s.next_task_ < s.total_tasks_ ∧
        s1.claims = s.claims ++ [{ batch := s.batchId, worker := w, task_id := s.next_task_ }] ∧
        s1.next_task_ = s.next_task_ + 1 := by
  have h1 := h.total_le
  have h0 := Pool.next_nonneg h
  cases t with
  | stay _ => exact Or.inl rfl
  | publish _ r n hc hint hn => exact Or.inl rfl
  | finish _ hc hd => exact Or.inl rfl
  | destroy _ hc => exact Or.inl rfl
  | exit _ w hw hsd => exact Or.inl rfl
  | claim _ w hw hsd hwork hlt =>
      right
      refine ⟨w, rfl, hlt, rfl, ?_⟩
      simp only [Pool.setWorker, Pool.claimNext, wrap32]
      omega
  | call _ w i t r hw => exact Or.inl rfl
  | complete _ w hw => exact Or.inl rfl

theorem Pool.Trans.has_work_effect {a : Action} {s s1 : Pool} (t : Pool.Trans a s s1)
    (h : s.Inv) :
    (s.has_work_ = false → s1.has_work_ = true →
      ∃ r n, a = Action.run r n ∧ 0 < n ∧ s1 = s.publish r n) ∧
    (s.has_work_ = true → s1.has_work_ = false →
      ∃ w, a = Action.worker w ∧ s.workers_[w]? = some Worker.ran ∧ s1 = s.complete w ∧
        s1.completed_tasks_ = s.completed_tasks_ + 1 ∧
        s1.completed_tasks_ = s1.total_tasks_) := by
  have h1 := h.total_le
  have h2 := h.held_eq
  have h3 := h.next_le
  have h4 := h.completed_nonneg
  cases t with
  | stay _ => exact ⟨fun h5 h6 => by simp [h5] at h6, fun h5 h6 => by simp [h5] at h6⟩
  | publish _ r n hc hint hn =>
      exact ⟨fun _ _ => ⟨r, n, rfl, hn, rfl⟩, fun _ h6 => by simp [Pool.publish] at h6⟩
  | finish _ hc hd => exact ⟨fun h5 h6 => by simp [h5] at h6, fun h5 h6 => by simp [h5] at h6⟩
  | destroy _ hc => exact ⟨fun h5 h6 => by simp [h5] at h6, fun h5 h6 => by simp [h5] at h6⟩
  | exit _ w hw hsd =>
      exact ⟨fun h5 h6 => by simp [Pool.setWorker, h5] at h6,
        fun h5 h6 => by simp [Pool.setWorker, h5] at h6⟩
  | claim _ w hw hsd hwork hlt =>
      exact ⟨fun h5 h6 => by simp [Pool.setWorker, Pool.claimNext, h5] at h6,
        fun h5 h6 => by simp [Pool.setWorker, Pool.claimNext, h5] at h6⟩
  | call _ w i t r hw =>
      exact ⟨fun h5 h6 => by simp [Pool.callRunTask, h5] at h6,
        fun h5 h6 => by simp [Pool.callRunTask, h5] at h6⟩
  | complete _ w hw =>
      have hheld : 0 < s.held := by
        unfold Pool.held
        exact List.countP_pos_iff.2 ⟨_, List.getElem?_mem hw, rfl⟩
      have hw32 : wrap32 (s.completed_tasks_ + 1) = s.completed_tasks_ + 1 := by
        unfold wrap32; omega
      constructor
      · intro h5 h6
        simp only [Pool.complete, hw32] at h6
        split at h6
        · simp at h6
        · simp [h5] at h6
      · intro h5 h6
        refine ⟨w, rfl, hw, rfl, ?_, ?_⟩
        · simp only [Pool.complete, hw32]
        · simp only [Pool.complete, hw32] at h6 ⊢
          split at h6
          · assumption
          · simp [h5] at h6

/-! ## Claims about reachable states of both pools -/

/-- C5: in every state either pool can reach, (1) `run` is only entered when the exit
condition of the previous call holds; (2) when the exit condition holds,
`next_task_ == total_tasks_` and no worker holds a claimed index whose completion is
not counted; (3) `run` with `num_total_tasks <= 0` publishes nothing; and so (4) for
every batch published by the sequence of `run` calls so far that is complete (a later
batch was published after it, or the exit condition holds now), `runTask(i, n)` was
called on its runnable exactly once for every `i` in `[0, n)` while it was current, and
no call of another batch was made meanwhile. -/
theorem C5_pools_reusable (num_threads : Int) (s : Pool)
    (hreach : TaskSystemParallelThreadPoolSpinning.Reachable num_threads s ∨
      TaskSystemParallelThreadPoolSleeping.Reachable num_threads s) :
    (∀ r n s1, (TaskSystemParallelThreadPoolSpinning.step (Action.run r n) s = some s1 ∨
        TaskSystemParallelThreadPoolSleeping.step (Action.run r n) s = some s1) →
        s.done = true ∧ (n ≤ 0 → s1 = s) ∧
        (0 < n → s1.published = s.published ++ [(some r, n)])) ∧
    (s.done = true → s.next_task_ = s.total_tasks_ ∧ s.noneHeld) ∧
    (∀ b r n, s.published[b]? = some (r, n) →
      (b + 1 < s.published.length ∨ s.done = true) → s.ExactlyOnce b r n) := by
  have hg : s.Good := by
    rcases hreach with h | h
    · exact spinning_reachable_good h
    · exact sleeping_reachable_good h
  refine ⟨?_, fun hd => Pool.idle_of_done hg.1 hd, fun b r n hpub hc =>
    Pool.exactlyOnce_completed hg hpub hc⟩
  intro r n s1 hs
  have hs2 : s.enterRun r n = some s1 := by
    rcases hs with hs | hs <;> exact hs
  unfold Pool.enterRun at hs2
  split at hs2
  · rename_i hc
    have hd : s.done = true :=
      (Pool.done_iff hg.1).2 (hg.1.idle_done (by rw [hc.1]; decide))
    split at hs2
    · rename_i hn
      cases hs2
      exact ⟨hd, fun _ => rfl, fun h0 => by omega⟩
    · rename_i hn
      cases hs2
      exact ⟨hd, fun h0 => by omega, fun _ => rfl⟩
  · cases hs2

/-- C8: in every state either pool can reach from its constructor,
`0 <= next_task_ <= total_tasks_`, `0 <= completed_tasks_ <= total_tasks_` and
`completed_tasks_ <= next_task_`. -/
theorem C8_cursor_bounds (num_threads : Int) (s : Pool)
    (hreach : TaskSystemParallelThreadPoolSpinning.Reachable num_threads s ∨
      TaskSystemParallelThreadPoolSleeping.Reachable num_threads s) :
    (0 ≤ s.next_task_ ∧ s.next_task_ ≤ s.total_tasks_) ∧
    (0 ≤ s.completed_tasks_ ∧ s.completed_tasks_ ≤ s.total_tasks_) ∧
    s.completed_tasks_ ≤ s.next_task_ := by
  have hg : s.Good := by
    rcases hreach with h | h
    · exact spinning_reachable_good h
    · exact sleeping_reachable_good h
  have h1 := hg.1.completed_nonneg
  have h2 := hg.1.held_eq
  have h3 := hg.1.next_le
  omega

theorem Pool.trans_of_step {a : Action} {s s1 : Pool} (h : s.Inv)
    (hs : TaskSystemParallelThreadPoolSpinning.step a s = some s1 ∨
      TaskSystemParallelThreadPoolSleeping.step a s = some s1) : Pool.Trans a s s1 := by
  rcases hs with hs | hs
  · exact spinning_step_trans h hs
  · exact sleeping_step_trans hs

theorem Pool.good_of_reachable {num_threads : Int} {s : Pool}
    (hreach : TaskSystemParallelThreadPoolSpinning.Reachable num_threads s ∨
      TaskSystemParallelThreadPoolSleeping.Reachable num_threads s) : s.Good := by
  rcases hreach with h | h
  · exact spinning_reachable_good h
  · exact sleeping_reachable_good h

theorem indexRange_length (n : Int) : (indexRange 0 n).length = n.toNat := by
  simp [indexRange]

theorem indexRange_getElem? {n i : Int} {k : Nat} (h : (indexRange 0 n)[k]? = some i) :
    i = (k : Int) := by
  simp only [indexRange, List.getElem?_map, Option.map_eq_some'] at h
  obtain ⟨m, hm, rfl⟩ := h
  rw [List.getElem?_range (by
    by_contra hcon
    rw [List.getElem?_eq_none (by simpa using hcon)] at hm
    cases hm)] at hm
  cases hm
  simp

theorem Pool.claimed_eq_indexRange {s : Pool} (hg : s.Good) (b : Nat) :
    ∃ m : Int, s.claimed b = indexRange 0 m := by
  by_cases h1 : s.published.length ≤ b
  · exact ⟨0, by rw [Pool.claimed_eq_nil_of_tag hg.2.2 h1, indexRange_of_le (le_refl _)]⟩
  · by_cases h2 : b + 1 < s.published.length
    · obtain ⟨d, hd⟩ : ∃ d, s.published[b]? = some d :=
        ⟨s.published[b], List.getElem?_eq_getElem (by omega)⟩
      exact ⟨d.2, hg.2.2.past_order b d h2 hd⟩
    · have hbe : b = s.batchId := by unfold Pool.batchId; omega
      subst hbe
      exact ⟨s.next_task_, hg.2.2.order⟩

/-- C9: in every state either pool can reach, (1) a step never decreases `next_task_`
unless it is the publish step of `run`, which sets it to `0`; (2) the only step that
makes a claim is a worker step taken with `next_task_ < total_tasks_`, it returns the
value of `next_task_` and increments it, so no claim is made once
`next_task_ == total_tasks_`; (3) the `k`-th claim of every batch (counting from `0`)
returned index `k`, and the claims of the current batch are exactly
`0, ..., next_task_ - 1`; (4) no index was claimed twice in a batch, by the same or by
different workers. -/
theorem C9_claims_in_index_order (num_threads : Int) (s : Pool)
    (hreach : TaskSystemParallelThreadPoolSpinning.Reachable num_threads s ∨
      TaskSystemParallelThreadPoolSleeping.Reachable num_threads s) :
    (∀ a s1, (TaskSystemParallelThreadPoolSpinning.step a s = some s1 ∨
        TaskSystemParallelThreadPoolSleeping.step a s = some s1) →
      (s.next_task_ ≤ s1.next_task_ ∨
        ∃ r n, a = Action.run r n ∧ 0 < n ∧ s1 = s.publish r n ∧ s1.next_task_ = 0) ∧
      (s1.claims = s.claims ∨
        ∃ w, a = Action.worker w ∧ s.next_task_ < s.total_tasks_ ∧
          s1.claims = s.claims ++
            [{ batch := s.batchId, worker := w, task_id := s.next_task_ }] ∧
          s1.next_task_ = s.next_task_ + 1) ∧
      (s.next_task_ = s.total_tasks_ → s1.claims = s.claims)) ∧
    (∀ (b k : Nat) (i : Int), (s.claimed b)[k]? = some i → i = (k : Int)) ∧
    s.claimed s.batchId = indexRange 0 s.next_task_ ∧
    (∀ b, (s.claimed b).Nodup) := by
  have hg := Pool.good_of_reachable hreach
  refine ⟨?_, ?_, hg.2.2.order, ?_⟩
  · intro a s1 hs
    have t := Pool.trans_of_step hg.1 hs
    refine ⟨t.next_task_effect hg.1, t.claims_effect hg.1, ?_⟩
    intro heq
    rcases t.claims_effect hg.1 with h | ⟨w, _, hlt, _⟩
    · exact h
    · omega
  · intro b k i hk
    obtain ⟨m, hm⟩ := Pool.claimed_eq_indexRange hg b
    rw [hm] at hk
    exact indexRange_getElem? hk
  · intro b
    obtain ⟨m, hm⟩ := Pool.claimed_eq_indexRange hg b
    rw [hm]
    exact indexRange_nodup 0 m

/-- C10: in every state either pool can reach, `has_work_` is false if and only if
`completed_tasks_ == total_tasks_`; a step that sets `has_work_` is the publish step
of `run`, and a step that clears it is the completion block of a worker, which in the
same step raises `completed_tasks_` by one to `total_tasks_`. -/
theorem C10_batch_completion_marking (num_threads : Int) (s : Pool)
    (hreach : TaskSystemParallelThreadPoolSpinning.Reachable num_threads s ∨
      TaskSystemParallelThreadPoolSleeping.Reachable num_threads s) :
    (s.has_work_ = false ↔ s.completed_tasks_ = s.total_tasks_) ∧
    (∀ a s1, (TaskSystemParallelThreadPoolSpinning.step a s = some s1 ∨
        TaskSystemParallelThreadPoolSleeping.step a s = some s1) →
      (s.has_work_ = false → s1.has_work_ = true →
        ∃ r n, a = Action.run r n ∧ 0 < n ∧ s1 = s.publish r n) ∧
      (s.has_work_ = true → s1.has_work_ = false →
        ∃ w, a = Action.worker w ∧ s.workers_[w]? = some Worker.ran ∧ s1 = s.complete w ∧
          s1.completed_tasks_ = s.completed_tasks_ + 1 ∧
          s1.completed_tasks_ = s1.total_tasks_)) := by
  have hg := Pool.good_of_reachable hreach
  refine ⟨?_, fun a s1 hs => (Pool.trans_of_step hg.1 hs).has_work_effect hg.1⟩
  have h1 := hg.1.has_work_iff
  constructor
  · intro hf
    by_contra hne
    rw [h1.2 hne] at hf
    cases hf
  · intro he
    cases hw : s.has_work_
    · rfl
    · exact absurd he (h1.1 hw)

/-! ## `TaskSystemParallelSpawn`: thread bounds and calls -/

theorem collect_map_some {α β : Type} (f : α → Option β) (g : α → β) (l : List α)
    (h : ∀ x ∈ l, f x = some (g x)) : collect (l.map f) = some (l.map g) := by
  induction l with
  | nil => rfl
  | cons a l ih =>
      have ha := h a (List.mem_cons_self a l)
      have hl := ih (fun x hx => h x (List.mem_cons_of_mem a hx))
      simp only [List.map_cons, ha, collect, hl]

theorem TaskSystemParallelSpawn.bounds_eq (ts : TaskSystemParallelSpawn) (n t : Int)
    (hT : ts.num_threads_ ≠ 0) :
    ts.bounds n t = some (wrap32 (Int.tdiv (wrap32 (t * n)) ts.num_threads_),
      wrap32 (Int.tdiv (wrap32 (wrap32 (t + 1) * n)) ts.num_threads_)) := by
  simp [TaskSystemParallelSpawn.bounds, cdiv, hT]

theorem TaskSystemParallelSpawn.threadBody_eq (ts : TaskSystemParallelSpawn) (n t : Int)
    (hT : ts.num_threads_ ≠ 0) :
    ts.threadBody n t = some (callRange (wrap32 (Int.tdiv (wrap32 (t * n)) ts.num_threads_))
      (wrap32 (Int.tdiv (wrap32 (wrap32 (t + 1) * n)) ts.num_threads_)) n) := by
  simp only [TaskSystemParallelSpawn.threadBody, ts.bounds_eq n t hT, forLoop_recorder,
    List.nil_append]

theorem TaskSystemParallelSpawn.construct_ne_zero (num_threads : Int) :
    (TaskSystemParallelSpawn.construct num_threads).num_threads_ ≠ 0 := by
  simp only [TaskSystemParallelSpawn.construct]
  omega

theorem TaskSystemParallelSpawn.run_eq (ts : TaskSystemParallelSpawn) (n : Int)
    (hT : ts.num_threads_ ≠ 0) (hn : 0 < n) :
    ts.run n = some ((List.range ts.num_threads_.toNat).map (fun (t : Nat) =>
      callRange (wrap32 (Int.tdiv (wrap32 ((t : Int) * n)) ts.num_threads_))
        (wrap32 (Int.tdiv (wrap32 (wrap32 ((t : Int) + 1) * n)) ts.num_threads_)) n)) := by
  rw [TaskSystemParallelSpawn.run, if_neg (by omega)]
  exact collect_map_some _ _ _ (fun t _ => ts.threadBody_eq n t hT)

/-- C7: for every requested thread count, also zero or negative, each of the three
constructors succeeds and sets `num_threads_` to `max(1, num_threads)`, which is at
least one; the pools start that many workers; and no division by `num_threads_` in
`TaskSystemParallelSpawn::run` is a division by zero, whatever the thread and the
number of tasks. -/
theorem C7_thread_count_clamped (num_threads : Int) :
    (TaskSystemParallelSpawn.construct num_threads).num_threads_ = max 1 num_threads ∧
    (TaskSystemParallelThreadPoolSpinning.construct num_threads).num_threads_
      = max 1 num_threads ∧
    (TaskSystemParallelThreadPoolSleeping.construct num_threads).num_threads_
      = max 1 num_threads ∧
    1 ≤ max 1 num_threads ∧
    ((TaskSystemParallelThreadPoolSpinning.construct num_threads).workers_.length : Int)
      = max 1 num_threads ∧
    ((TaskSystemParallelThreadPoolSleeping.construct num_threads).workers_.length : Int)
      = max 1 num_threads ∧
    (∀ n t, ((TaskSystemParallelSpawn.construct num_threads).bounds n t).isSome = true) ∧
    (∀ n, ((TaskSystemParallelSpawn.construct num_threads).run n).isSome = true) := by
  refine ⟨rfl, rfl, rfl, le_max_left 1 num_threads, ?_, ?_, ?_, ?_⟩
  · simp only [TaskSystemParallelThreadPoolSpinning.construct, Pool.construct,
      List.length_replicate]
    omega
  · simp only [TaskSystemParallelThreadPoolSleeping.construct, Pool.construct,
      List.length_replicate]
    omega
  · intro n t
    rw [TaskSystemParallelSpawn.bounds_eq _ n t
      (TaskSystemParallelSpawn.construct_ne_zero num_threads)]
    rfl
  · intro n
    by_cases hn : 0 < n
    · rw [TaskSystemParallelSpawn.run_eq _ n
        (TaskSystemParallelSpawn.construct_ne_zero num_threads) hn]
      rfl
    · simp [TaskSystemParallelSpawn.run, not_lt.1 hn]

/-- C6: `run` does nothing when `num_total_tasks <= 0`: the serial loop returns the
caller's state unchanged and makes no call, the spawn system starts no thread and
makes no call, and in both pools `run`, entered by the owner with any `int` argument
`<= 0`, returns at once leaving the whole pool state (the six dispatch fields
`current_runnable_`, `total_tasks_`, `next_task_`, `completed_tasks_`, `has_work_`,
`shutting_down_`, the workers and the record of calls) as it was. -/
theorem C6_run_noop_nonpositive (n : Int) (hn : n ≤ 0) :
    (∀ (σ : Type) (runnable : IRunnable σ) (st : σ),
      TaskSystemSerial.run runnable n st = st) ∧
    TaskSystemSerial.run recorder n [] = [] ∧
    (∀ ts : TaskSystemParallelSpawn, ts.run n = some [] ∧ ts.calls n = some []) ∧
    (∀ (s : Pool) (r : Nat), s.caller = Caller.idle → isInt32 n →
      TaskSystemParallelThreadPoolSpinning.step (Action.run r n) s = some s ∧
      TaskSystemParallelThreadPoolSleeping.step (Action.run r n) s = some s) ∧
    (∀ (s s1 : Pool) (r : Nat),
      (TaskSystemParallelThreadPoolSpinning.step (Action.run r n) s = some s1 ∨
       TaskSystemParallelThreadPoolSleeping.step (Action.run r n) s = some s1) →
      s1 = s) := by
  have hserial : ∀ (σ : Type) (runnable : IRunnable σ) (st : σ),
      TaskSystemSerial.run runnable n st = st := by
    intro σ runnable st
    rw [TaskSystemSerial.run, forLoop, if_neg (by omega)]
  refine ⟨hserial, hserial _ _ _, ?_, ?_, ?_⟩
  · intro ts
    simp [TaskSystemParallelSpawn.calls, TaskSystemParallelSpawn.run, hn]
  · intro s r hc hint
    simp [TaskSystemParallelThreadPoolSpinning.step, TaskSystemParallelThreadPoolSleeping.step,
      Pool.enterRun, hc, hint, hn]
  · intro s s1 r hs
    have hs2 : s.enterRun r n = some s1 := by
      rcases hs with hs | hs <;> exact hs
    unfold Pool.enterRun at hs2
    rw [if_pos hn] at hs2
    split at hs2
    · cases hs2
      rfl
    · cases hs2

/-! ## `TaskSystemParallelSpawn`: the partition of the index range -/

theorem wrap32_of_isInt32 {x : Int} (h1 : -2147483648 ≤ x) (h2 : x ≤ 2147483647) :
    wrap32 x = x := by
  unfold wrap32
  omega

theorem callRange_append {lo mid hi : Int} (n : Int) (h1 : lo ≤ mid) (h2 : mid ≤ hi) :
    callRange lo mid n ++ callRange mid hi n = callRange lo hi n := by
  simp only [callRange, ← List.map_append, indexRange_append h1 h2]

theorem mem_callRange {lo hi n : Int} {c : Call} :
    c ∈ callRange lo hi n ↔ (lo ≤ c.1 ∧ c.1 < hi) ∧ c.2 = n := by
  simp only [callRange, List.mem_map, mem_indexRange]
  constructor
  · rintro ⟨i, hi, rfl⟩
    exact ⟨hi, rfl⟩
  · rintro ⟨hi, hn⟩
    exact ⟨c.1, hi, by rw [← hn]⟩

theorem flatten_callRange (f : Nat → Int) (n : Int) (hf : ∀ k, f k ≤ f (k + 1)) (m : Nat) :
    ((List.range m).map (fun k => callRange (f k) (f (k + 1)) n)).flatten
      = callRange (f 0) (f m) n := by
  have hmono : ∀ k, f 0 ≤ f k := by
    intro k
    induction k with
    | zero => exact le_refl _
    | succ k ih => exact le_trans ih (hf k)
  induction m with
  | zero => simp [callRange, indexRange_of_le (le_refl (f 0))]
  | succ m ih =>
      rw [List.range_succ, List.map_append, List.flatten_append, ih]
      simp only [List.map_cons, List.map_nil, List.flatten_cons, List.flatten_nil,
        List.append_nil]
      exact callRange_append n (hmono m) (hf m)

/-- When `num_threads_ * num_total_tasks` fits in an `int`, the threads of
`TaskSystemParallelSpawn::run` call `runTask(i, n)` exactly for `i = 0, ..., n - 1`, each
once. -/
theorem TaskSystemParallelSpawn.calls_of_no_overflow (ts : TaskSystemParallelSpawn)
    (n : Int) (hT : 1 ≤ ts.num_threads_) (hn : 0 < n)
    (hfit : ts.num_threads_ * n ≤ 2147483647) :
    ts.calls n = some (callRange 0 n n) := by
  obtain ⟨T, hTdef⟩ : ∃ T, ts.num_threads_ = T := ⟨_, rfl⟩
  rw [hTdef] at hT hfit
  have hT0 : ts.num_threads_ ≠ 0 := by omega
  rw [TaskSystemParallelSpawn.calls, ts.run_eq n hT0 hn, Option.map_some', hTdef]
  have hbody : ∀ t ∈ List.range T.toNat,
      callRange (wrap32 (Int.tdiv (wrap32 ((t : Int) * n)) T))
        (wrap32 (Int.tdiv (wrap32 (wrap32 ((t : Int) + 1) * n)) T)) n
      = callRange (((t : Int) * n) / T) ((((t + 1 : Nat) : Int) * n) / T) n := by
    intro t ht
    have htT : (t : Int) + 1 ≤ T := by
      have := List.mem_range.1 ht
      omega
    have ht0 : (0 : Int) ≤ t := Int.ofNat_nonneg t
    have hmul1 : ((t : Int) + 1) * n ≤ T * n := mul_le_mul_of_nonneg_right htT (by omega)
    have hmul0 : (t : Int) * n ≤ ((t : Int) + 1) * n :=
      mul_le_mul_of_nonneg_right (by omega) (by omega)
    have hpos0 : 0 ≤ (t : Int) * n := mul_nonneg ht0 (by omega)
    have hpos1 : 0 ≤ ((t : Int) + 1) * n := mul_nonneg (by omega) (by omega)
    have hTn : T ≤ T * n := by
      have := mul_le_mul_of_nonneg_left (show (1 : Int) ≤ n by omega)
        (show (0 : Int) ≤ T by omega)
      simpa using this
    have hw0 : wrap32 ((t : Int) * n) = (t : Int) * n := wrap32_of_isInt32 (by omega) (by omega)
    have hw1 : wrap32 ((t : Int) + 1) = (t : Int) + 1 := wrap32_of_isInt32 (by omega) (by omega)
    have hw2 : wrap32 (((t : Int) + 1) * n) = ((t : Int) + 1) * n :=
      wrap32_of_isInt32 (by omega) (by omega)
    have hq0 := Int.ediv_le_self T hpos0
    have hq1 := Int.ediv_le_self T hpos1
    have hq0n := Int.ediv_nonneg hpos0 (show (0 : Int) ≤ T by omega)
    have hq1n := Int.ediv_nonneg hpos1 (show (0 : Int) ≤ T by omega)
    rw [hw0, hw1, hw2, Int.tdiv_eq_ediv hpos0 (by omega), Int.tdiv_eq_ediv hpos1 (by omega),
      wrap32_of_isInt32 (by omega) (by omega), wrap32_of_isInt32 (by omega) (by omega)]
    push_cast
    rfl
  rw [List.map_congr_left hbody]
  have hflat := flatten_callRange (fun k => ((k : Int) * n) / T) n (by
    intro k
    apply Int.ediv_le_ediv (by omega)
    push_cast
    exact mul_le_mul_of_nonneg_right (by omega) (by omega)) T.toNat
  simp only at hflat
  rw [hflat]
  have hTcast : ((T.toNat : Nat) : Int) = T := by omega
  rw [hTcast, Int.mul_ediv_cancel_left n (by omega)]
  simp

theorem TaskSystemParallelSpawn.calls_overflow :
    (TaskSystemParallelSpawn.construct 4).calls 536870912
      = some (callRange 0 402653184 536870912) := by
  rw [TaskSystemParallelSpawn.calls, TaskSystemParallelSpawn.run_eq _ _
    (TaskSystemParallelSpawn.construct_ne_zero 4) (by decide)]
  have h : (callRange 0 134217728 536870912 ++ (callRange 134217728 268435456 536870912 ++
      (callRange 268435456 402653184 536870912 ++
        (callRange 402653184 (-536870912) 536870912 ++ []))))
      = callRange 0 402653184 536870912 := by
    have h4 : callRange 402653184 (-536870912) 536870912 = [] := by
      simp [callRange, indexRange_of_le (show (-536870912 : Int) ≤ 402653184 by decide)]
    rw [h4, List.append_nil, List.append_nil,
      callRange_append _ (by decide) (by decide), callRange_append _ (by decide) (by decide)]
  rw [← h]
  rfl

/-- C3, at the failing input `num_threads = 4`, `num_total_tasks = 536870912 = 2^29`:
`(t + 1) * num_total_tasks` overflows in thread `3`, whose bounds become
`start = 402653184`, `end = -536870912`, so the thread makes no call; the run calls
`runTask(i, n)` for `i` in `[0, 402653184)` only, and in every schedule no index `i` of
`[402653184, 536870912)` is invoked, although each lies in `[0, num_total_tasks)`. -/
theorem C3_spawn_overflow_skips_indices :
    isInt32 536870912 ∧
    (TaskSystemParallelSpawn.construct 4).bounds 536870912 3
      = some (402653184, -536870912) ∧
    (TaskSystemParallelSpawn.construct 4).calls 536870912
      = some (callRange 0 402653184 536870912) ∧
    (∀ schedule : List Call,
      (TaskSystemParallelSpawn.construct 4).IsSchedule 536870912 schedule →
      ∀ i : Int, 402653184 ≤ i → i < 536870912 →
        ((i, 536870912) : Call) ∉ schedule) := by
  have hint : isInt32 536870912 := by
    unfold isInt32 INT_MIN INT_MAX
    omega
  have hb : (TaskSystemParallelSpawn.construct 4).bounds 536870912 3
      = some (402653184, -536870912) := by
    rw [TaskSystemParallelSpawn.bounds_eq _ _ _ (TaskSystemParallelSpawn.construct_ne_zero 4)]
    rfl
  refine ⟨hint, hb, TaskSystemParallelSpawn.calls_overflow, ?_⟩
  rintro schedule ⟨calls, hcalls, hperm⟩ i h1 h2
  rw [TaskSystemParallelSpawn.calls_overflow] at hcalls
  have hc := Option.some.inj hcalls
  rw [hperm.mem_iff, ← hc, mem_callRange]
  intro h
  have := h.1.2
  simp only at this
  omega

/-! ## Output buffers -/

theorem replay_slotWriter {α : Type} (val : Int → Int → α) (n : Int) (calls : List Call)
    (hn : ∀ c ∈ calls, c.2 = n) (buf : Int → α) (j : Int) :
    replay (slotWriter val) calls buf j
      = if j ∈ calls.map Prod.fst then val j n else buf j := by
  induction calls generalizing buf with
  | nil => simp [replay]
  | cons c rest ih =>
      have hc := hn c (List.mem_cons_self c rest)
      have ih2 := ih (fun d hd => hn d (List.mem_cons_of_mem c hd))
        (Function.update buf c.1 (val c.1 c.2))
      simp only [replay, List.foldl_cons, slotWriter] at ih2 ⊢
      rw [ih2]
      by_cases h1 : j ∈ rest.map Prod.fst
      · rw [if_pos h1, if_pos (by simp only [List.map_cons, List.mem_cons]; exact Or.inr h1)]
      · rw [if_neg h1]
        by_cases h2 : j = c.1
        · rw [if_pos (by simp only [List.map_cons, List.mem_cons]; exact Or.inl h2), h2,
            Function.update_same, hc]
        · rw [if_neg (by
            simp only [List.map_cons, List.mem_cons, not_or]
            exact ⟨h2, h1⟩), Function.update_noteq h2]

theorem serial_slotWriter {α : Type} (val : Int → Int → α) (n : Int) (buf : Int → α)
    (j : Int) :
    TaskSystemSerial.run (slotWriter val) n buf j
      = if 0 ≤ j ∧ j < n then val j n else buf j := by
  rw [serial_run_eq_replay, replay_slotWriter val n _ (fun c hc => (mem_callRange.1 hc).2)]
  have hiff : j ∈ (callRange 0 n n).map Prod.fst ↔ 0 ≤ j ∧ j < n := by
    simp only [callRange, List.map_map, List.mem_map, mem_indexRange, Function.comp]
    constructor
    · rintro ⟨i, hi, rfl⟩; exact hi
    · intro h; exact ⟨j, h, rfl⟩
  by_cases h : 0 ≤ j ∧ j < n
  · rw [if_pos (hiff.2 h), if_pos h]
  · rw [if_neg (fun hm => h (hiff.1 hm)), if_neg h]

theorem replay_eq_serial_of_mem {α : Type} (val : Int → Int → α) (n : Int)
    (calls : List Call) (hn : ∀ c ∈ calls, c.2 = n)
    (hmem : ∀ j, j ∈ calls.map Prod.fst ↔ 0 ≤ j ∧ j < n) (buf : Int → α) :
    replay (slotWriter val) calls buf = TaskSystemSerial.run (slotWriter val) n buf := by
  funext j
  rw [replay_slotWriter val n calls hn, serial_slotWriter]
  by_cases h : 0 ≤ j ∧ j < n
  · rw [if_pos ((hmem j).2 h), if_pos h]
  · rw [if_neg (fun hm => h ((hmem j).1 hm)), if_neg h]

/-- After a completed batch `run(r, n)` of either pool, whatever the interleaving of the
workers, a workload that writes slot `i` with a value depending on `(i, n)` only has
produced the output buffer of the serial loop. -/
theorem Pool.buffer_eq_serial {α : Type} (val : Int → Int → α) (num_threads : Int)
    (s : Pool) (r : RunnablePtr) (n : Int)
    (hreach : TaskSystemParallelThreadPoolSpinning.Reachable num_threads s ∨
      TaskSystemParallelThreadPoolSleeping.Reachable num_threads s)
    (hpub : s.published.getLast? = some (r, n)) (hdone : s.done = true) (buf : Int → α) :
    replay (slotWriter val) (s.batchCalls s.batchId) buf
      = TaskSystemSerial.run (slotWriter val) n buf := by
  have hex := Pool.exactlyOnce_current (Pool.good_of_reachable hreach) hpub hdone
  apply replay_eq_serial_of_mem
  · intro c hc
    simp only [Pool.batchCalls, List.mem_map, List.mem_filter, decide_eq_true_eq] at hc
    obtain ⟨e, ⟨he, hb⟩, rfl⟩ := hc
    exact (hex.2 e he hb).2.1
  · intro j
    simp only [Pool.batchCalls, List.map_map, List.mem_map, List.mem_filter,
      decide_eq_true_eq, Function.comp]
    constructor
    · rintro ⟨e, ⟨he, hb⟩, rfl⟩
      exact (hex.2 e he hb).2.2
    · rintro ⟨h0, h1⟩
      have hone := hex.1 j h0 h1
      have hpos : 0 < s.invoked s.batchId r j n := by omega
      unfold Pool.invoked at hpos
      exact ⟨_, ⟨List.count_pos_iff.1 hpos, rfl⟩, rfl⟩

/-- When `num_threads_ * num_total_tasks` fits in an `int`, every schedule of
`TaskSystemParallelSpawn::run` produces the output buffer of the serial loop. -/
theorem TaskSystemParallelSpawn.buffer_eq_serial_of_no_overflow {α : Type}
    (val : Int → Int → α) (ts : TaskSystemParallelSpawn) (n : Int)
    (hT : 1 ≤ ts.num_threads_) (hn : 0 < n) (hfit : ts.num_threads_ * n ≤ 2147483647)
    (schedule : List Call) (hs : ts.IsSchedule n schedule) (buf : Int → α) :
    replay (slotWriter val) schedule buf = TaskSystemSerial.run (slotWriter val) n buf := by
  obtain ⟨calls, hcalls, hperm⟩ := hs
  rw [ts.calls_of_no_overflow n hT hn hfit] at hcalls
  have hc := Option.some.inj hcalls
  apply replay_eq_serial_of_mem
  · intro c hmem
    rw [hperm.mem_iff, ← hc] at hmem
    exact (mem_callRange.1 hmem).2
  · intro j
    simp only [List.mem_map]
    constructor
    · rintro ⟨c, hmem, rfl⟩
      rw [hperm.mem_iff, ← hc] at hmem
      exact (mem_callRange.1 hmem).1
    · intro h
      refine ⟨(j, n), ?_, rfl⟩
      rw [hperm.mem_iff, ← hc]
      exact mem_callRange.2 ⟨h, rfl⟩

/-- C4, at the failing input `num_threads = 4`, `num_total_tasks = 536870912 = 2^29`
(the overflow of C3): a run of `TaskSystemParallelSpawn` completes, and in every
schedule every output slot `i` of `[402653184, 536870912)` keeps its initial value,
while the serial loop stores the workload's value there; with the workload that writes
`1` and a buffer of zeros the two output buffers differ. -/
theorem C4_spawn_buffer_differs_from_serial :
    (∃ schedule : List Call,
      (TaskSystemParallelSpawn.construct 4).IsSchedule 536870912 schedule) ∧
    (∀ (α : Type) (val : Int → Int → α) (buf : Int → α) (schedule : List Call),
      (TaskSystemParallelSpawn.construct 4).IsSchedule 536870912 schedule →
      ∀ i : Int, 402653184 ≤ i → i < 536870912 →
        replay (slotWriter val) schedule buf i = buf i ∧
        TaskSystemSerial.run (slotWriter val) 536870912 buf i = val i 536870912) ∧
    (∀ schedule : List Call,
      (TaskSystemParallelSpawn.construct 4).IsSchedule 536870912 schedule →
      replay (slotWriter (fun _ _ => (1 : Int))) schedule (fun _ => 0)
        ≠ TaskSystemSerial.run (slotWriter (fun _ _ => (1 : Int))) 536870912
            (fun _ => 0)) := by
  have hgen : ∀ (α : Type) (val : Int → Int → α) (buf : Int → α) (schedule : List Call),
      (TaskSystemParallelSpawn.construct 4).IsSchedule 536870912 schedule →
      ∀ i : Int, 402653184 ≤ i → i < 536870912 →
        replay (slotWriter val) schedule buf i = buf i ∧
        TaskSystemSerial.run (slotWriter val) 536870912 buf i = val i 536870912 := by
    intro α val buf schedule hs i h1 h2
    obtain ⟨calls, hcalls, hperm⟩ := hs
    rw [TaskSystemParallelSpawn.calls_overflow] at hcalls
    have hc := Option.some.inj hcalls
    constructor
    · rw [replay_slotWriter val 536870912 schedule (by
        intro c hmem
        rw [hperm.mem_iff, ← hc] at hmem
        exact (mem_callRange.1 hmem).2), if_neg]
      simp only [List.mem_map, not_exists, not_and]
      intro c hmem hci
      rw [hperm.mem_iff, ← hc] at hmem
      have := (mem_callRange.1 hmem).1.2
      omega
    · rw [serial_slotWriter, if_pos ⟨by omega, h2⟩]
  refine ⟨⟨_, _, TaskSystemParallelSpawn.calls_overflow, List.Perm.refl _⟩, hgen, ?_⟩
  intro schedule hs heq
  have h := hgen Int (fun _ _ => 1) (fun _ => 0) schedule hs 402653184 (le_refl _)
    (by decide)
  rw [heq] at h
  have h2 := h.1.symm.trans h.2
  simp at h2

/-! ## The claims on the sample executions -/

theorem C1_spinning_run_exactly_once_witness :
    (0 : Int) < 2 ∧ TaskSystemParallelThreadPoolSpinning.Reachable 2 oneBatchState ∧
    oneBatchState.published.getLast? = some (some 7, 2) ∧ oneBatchState.done = true ∧
    oneBatchState.invoked 0 (some 7) 0 2 = 1 ∧ oneBatchState.invoked 0 (some 7) 1 2 = 1 :=
  ⟨by decide, ⟨oneBatchTrace, by decide⟩, by decide, by decide,
    (C1_spinning_run_exactly_once 2 oneBatchState (some 7) 2 (by decide)
      ⟨oneBatchTrace, by decide⟩ (by decide) (by decide)).1 0 (by decide) (by decide),
    (C1_spinning_run_exactly_once 2 oneBatchState (some 7) 2 (by decide)
      ⟨oneBatchTrace, by decide⟩ (by decide) (by decide)).1 1 (by decide) (by decide)⟩

theorem C2_sleeping_run_exactly_once_witness :
    (0 : Int) < 1 ∧ TaskSystemParallelThreadPoolSleeping.Reachable 2 twoBatchState ∧
    twoBatchState.published.getLast? = some (some 8, 1) ∧ twoBatchState.done = true ∧
    twoBatchState.invoked 1 (some 8) 0 1 = 1 :=
  ⟨by decide, ⟨twoBatchTrace, by decide⟩, by decide, by decide,
    (C2_sleeping_run_exactly_once 2 twoBatchState (some 8) 1 (by decide)
      ⟨twoBatchTrace, by decide⟩ (by decide) (by decide)).1 0 (by decide) (by decide)⟩

theorem C5_pools_reusable_witness :
    (TaskSystemParallelThreadPoolSpinning.Reachable 2 twoBatchState ∨
      TaskSystemParallelThreadPoolSleeping.Reachable 2 twoBatchState) ∧
    (twoBatchState.next_task_ = twoBatchState.total_tasks_ ∧ twoBatchState.noneHeld) ∧
    twoBatchState.ExactlyOnce 0 (some 7) 2 ∧ twoBatchState.ExactlyOnce 1 (some 8) 1 :=
  ⟨Or.inl ⟨twoBatchTrace, by decide⟩,
    (C5_pools_reusable 2 twoBatchState (Or.inl ⟨twoBatchTrace, by decide⟩)).2.1 (by decide),
    (C5_pools_reusable 2 twoBatchState (Or.inl ⟨twoBatchTrace, by decide⟩)).2.2 0 (some 7) 2
      (by decide) (Or.inl (by decide)),
    (C5_pools_reusable 2 twoBatchState (Or.inl ⟨twoBatchTrace, by decide⟩)).2.2 1 (some 8) 1
      (by decide) (Or.inr (by decide))⟩

theorem C6_run_noop_nonpositive_witness :
    (-3 : Int) ≤ 0 ∧
    TaskSystemSerial.run recorder (-3) [] = [] ∧
    TaskSystemParallelThreadPoolSpinning.step (Action.run 7 (-3)) twoBatchState
      = some twoBatchState ∧
    TaskSystemParallelThreadPoolSleeping.step (Action.run 7 (-3)) twoBatchState
      = some twoBatchState :=
  ⟨by decide, (C6_run_noop_nonpositive (-3) (by decide)).2.1,
    ((C6_run_noop_nonpositive (-3) (by decide)).2.2.2.1 twoBatchState 7 (by decide)
      (by decide)).1,
    ((C6_run_noop_nonpositive (-3) (by decide)).2.2.2.1 twoBatchState 7 (by decide)
      (by decide)).2⟩

theorem C8_cursor_bounds_witness :
    (TaskSystemParallelThreadPoolSpinning.Reachable 2 midBatchState ∨
      TaskSystemParallelThreadPoolSleeping.Reachable 2 midBatchState) ∧
    ((0 ≤ midBatchState.next_task_ ∧
      midBatchState.next_task_ ≤ midBatchState.total_tasks_) ∧
    (0 ≤ midBatchState.completed_tasks_ ∧
      midBatchState.completed_tasks_ ≤ midBatchState.total_tasks_) ∧
    midBatchState.completed_tasks_ ≤ midBatchState.next_task_) :=
  ⟨Or.inr ⟨midBatchTrace, by decide⟩,
    C8_cursor_bounds 2 midBatchState (Or.inr ⟨midBatchTrace, by decide⟩)⟩

theorem C9_claims_in_index_order_witness :
    (TaskSystemParallelThreadPoolSpinning.Reachable 2 midBatchState ∨
      TaskSystemParallelThreadPoolSleeping.Reachable 2 midBatchState) ∧
    midBatchState.claimed midBatchState.batchId = indexRange 0 midBatchState.next_task_ ∧
    (midBatchState.claimed 0).Nodup :=
  ⟨Or.inl ⟨midBatchTrace, by decide⟩,
    (C9_claims_in_index_order 2 midBatchState (Or.inl ⟨midBatchTrace, by decide⟩)).2.2.1,
    (C9_claims_in_index_order 2 midBatchState (Or.inl ⟨midBatchTrace, by decide⟩)).2.2.2 0⟩

theorem C10_batch_completion_marking_witness :
    (TaskSystemParallelThreadPoolSpinning.Reachable 2 oneBatchState ∨
      TaskSystemParallelThreadPoolSleeping.Reachable 2 oneBatchState) ∧
    (oneBatchState.has_work_ = false ↔
      oneBatchState.completed_tasks_ = oneBatchState.total_tasks_) :=
  ⟨Or.inr ⟨oneBatchTrace, by decide⟩,
    (C10_batch_completion_marking 2 oneBatchState (Or.inr ⟨oneBatchTrace, by decide⟩)).1⟩

end TaskSys
